import Mathlib

/-!
Parallel odd-even transposition sort (`odd_even_sort.cpp`).

A shallow embedding of `isSorted`, `parallelOddEvenSort` and `main`, followed by
theorems about them.

Modelling conventions.

* A `std::vector<int>` is a `List Int`.  An access `arr[j]` is checked: an index outside
  `0 .. size-1` makes the enclosing function return `none`.
* `int` loop variables are `Int`; the conversion `int n = arr.size()` is the
  two's-complement narrowing `toInt32`.  `size_t` arithmetic is taken modulo `2^64`.
* `#pragma omp parallel for schedule(static)` splits the iteration space into one
  contiguous chunk per team member; the members then run their chunks concurrently.  An
  execution is described by a list of scheduling ticks (which member runs its next
  iteration); the loop body is the unit of interleaving.
* `Run` carries, besides the array, three ghost counters (outer iterations, executed loop
  bodies, executed swaps).
-/

namespace OddEvenSort

/-! ## Machine integers and checked vector access -/

/-- Conversion of a `size_t` value to `int`: the value modulo `2^32`, read as a 32-bit
two's complement number. -/
def toInt32 (x : Nat) : Int :=
  if x % 2 ^ 32 < 2 ^ 31 then ((x % 2 ^ 32 : Nat) : Int) else ((x % 2 ^ 32 : Nat) : Int) - 2 ^ 32

/-- The `size_t` value of `arr.size() - 1`: `size - 1` modulo `2^64`. -/
def sizeMinusOne (size : Nat) : Nat := (((size : Int) - 1) % 2 ^ 64).toNat

/-- Checked read `arr[j]` for an `int` index. -/
def vecGet (arr : List Int) (j : Int) : Option Int :=
  if 0 ≤ j then arr[j.toNat]? else none

/-! ## `isSorted` -/

/-- The loop of `isSorted`: `i` is the loop variable and the last argument the number of
iterations left before `i` reaches the bound.  The result pairs the returned boolean with
the value of `i` at the moment of return. -/
def isSortedLoop (arr : List Int) : Nat → Nat → Option (Bool × Nat)
  | i, 0 => some (true, i)
  | i, k + 1 =>
    match arr[i]?, arr[i + 1]? with
    | some x, some y => if x > y then some (false, i) else isSortedLoop arr (i + 1) k
    | _, _ => none

/-- The scan `for (size_t i = 0; i < arr.size() - 1; ++i)` of `isSorted`. -/
def isSortedScan (arr : List Int) : Option (Bool × Nat) :=
  isSortedLoop arr 0 (sizeMinusOne arr.length)

/-- Embedding of `bool isSorted(const std::vector<int>& arr)`. -/
def isSorted (arr : List Int) : Option Bool :=
  (isSortedScan arr).map Prod.fst

/-! ## `parallelOddEvenSort` -/

/-- State of a sort: the array and ghost counters. -/
structure Run where
  arr : List Int
  rounds : Nat
  cmps : Nat
  swaps : Nat
deriving DecidableEq, Repr

/-- Body of both inner loops:
`if (arr[j] > arr[j + 1]) std::swap(arr[j], arr[j + 1]);`. -/
def cmpSwap (j : Int) (r : Run) : Option Run :=
  match vecGet r.arr j, vecGet r.arr (j + 1) with
  | some x, some y =>
    if x > y then
      some { r with arr := (r.arr.set j.toNat y).set (j + 1).toNat x,
                    cmps := r.cmps + 1, swaps := r.swaps + 1 }
    else
      some { r with cmps := r.cmps + 1 }
  | _, _ => none

/-- Values taken by `j` in `for (int j = ...; j < ub; j += 2)`, started at `j`, with at
most `fuel` iterations. -/
def forIters (ub : Int) : Int → Nat → List Int
  | _, 0 => []
  | j, fuel + 1 => if j < ub then j :: forIters ub (j + 2) fuel else []

/-- Iteration space of `for (int j = lb; j < ub; j += 2)`. -/
def ompIters (lb ub : Int) : List Int := forIters ub lb (ub - lb).toNat

/-- Chunk sizes of `schedule(static)` for `c` iterations and a team of `t`: the first
`c % t` members get one iteration more than the others. -/
def staticSizes (t c : Nat) : List Nat :=
  (List.range t).map (fun i => if i < c % t then c / t + 1 else c / t)

/-- Cut a list into consecutive pieces of the given sizes. -/
def splitBy : List Nat → List Int → List (List Int)
  | [], _ => []
  | s :: ss, l => l.take s :: splitBy ss (l.drop s)

/-- The chunks of iterations assigned to the team members. -/
def staticChunks (t : Nat) (iters : List Int) : List (List Int) :=
  splitBy (staticSizes t iters.length) iters

/-- Order in which the loop bodies are executed: each tick names a team member, which
runs its next pending iteration (a tick naming a member without pending work is idle);
when the ticks are used up the members finish one after the other. -/
def interleave : List Nat → List (List Int) → List Int
  | [], chunks => chunks.flatten
  | tid :: ticks, chunks =>
    match chunks[tid]? with
    | some (j :: pending) => j :: interleave ticks (chunks.set tid pending)
    | _ => interleave ticks chunks

/-- Execute loop bodies in the given order. -/
def runIters (body : Int → Run → Option Run) (js : List Int) (r : Run) : Option Run :=
  js.foldl (fun o j => o.bind (body j)) (some r)

/-- A loop under `#pragma omp parallel for schedule(static)` run by a team of `team`
threads under the schedule `ticks`; it returns when all iterations are done (the implicit
barrier). -/
def ompParallelFor (team : Nat) (ticks : List Nat) (lb ub : Int)
    (body : Int → Run → Option Run) (r : Run) : Option Run :=
  runIters body (interleave ticks (staticChunks team (ompIters lb ub))) r

/-- Team size after `omp_set_num_threads(num_threads)`.  For a non-positive request the
runtime's choice is implementation-defined; the model takes one thread. -/
def teamSize (num_threads : Int) : Nat :=
  if 1 ≤ num_threads then num_threads.toNat else 1

/-- Odd phase: `for (int j = 1; j < n - 1; j += 2)`. -/
def oddPhase (n : Int) (team : Nat) (ticks : List Nat) (r : Run) : Option Run :=
  ompParallelFor team ticks 1 (n - 1) cmpSwap r

/-- Even phase: `for (int j = 0; j < n - 1; j += 2)`. -/
def evenPhase (n : Int) (team : Nat) (ticks : List Nat) (r : Run) : Option Run :=
  ompParallelFor team ticks 0 (n - 1) cmpSwap r

/-- Body of the outer loop for the value `i` of its variable: odd phase, then even
phase.  `sched` gives the scheduling ticks of every phase. -/
def outerBody (n : Int) (team : Nat) (sched : Nat → List Nat) (i : Nat) (r : Run) :
    Option Run :=
  ((oddPhase n team (sched (2 * i)) r).bind (evenPhase n team (sched (2 * i + 1)))).map
    (fun r1 => { r1 with rounds := r1.rounds + 1 })

/-- Embedding of `void parallelOddEvenSort(std::vector<int>& arr, int num_threads)`:
`for (int i = 0; i < n; ++i)` over `outerBody`. -/
def parallelOddEvenSort (arr : List Int) (num_threads : Int) (sched : Nat → List Nat) :
    Option Run :=
  let n := toInt32 arr.length
  (List.range n.toNat).foldl (fun o i => o.bind (outerBody n (teamSize num_threads) sched i))
    (some { arr := arr, rounds := 0, cmps := 0, swaps := 0 })

/-- State of the sort when the outer loop `for (int i = 0; i < n; ++i)` has made its
first `k` iterations (all of them, if the loop ends before). -/
def sortAfter (arr : List Int) (num_threads : Int) (sched : Nat → List Nat) (k : Nat) :
    Option Run :=
  let n := toInt32 arr.length
  (List.range (min k n.toNat)).foldl
    (fun o i => o.bind (outerBody n (teamSize num_threads) sched i))
    (some { arr := arr, rounds := 0, cmps := 0, swaps := 0 })

/-- State of the sort when it has completed its first `p` phases (all of them, if the
sort ends before): `p / 2` outer iterations and, for odd `p`, the odd phase of the next
outer iteration. -/
def sortAfterPhases (arr : List Int) (num_threads : Int) (sched : Nat → List Nat) (p : Nat) :
    Option Run :=
  let n := toInt32 arr.length
  let q := min p (2 * n.toNat)
  (sortAfter arr num_threads sched (q / 2)).bind (fun r =>
    if q % 2 = 1 then oddPhase n (teamSize num_threads) (sched (2 * (q / 2))) r else some r)

/-- The schedule in which no tick is issued: the members run one after the other. -/
def seqSched : Nat → List Nat := fun _ => []

/-- A schedule that alternates between members, in a different way in each phase. -/
def rrSched : Nat → List Nat := fun p => (List.range 12).map (fun k => (3 * k + p) % 4)

/-! ## `main` -/

/-- What `main` does, in order. -/
inductive Step where
  | usage
  | generate
  | sort
  | check
  | reportOk
  | reportFail
deriving DecidableEq, Repr

/-- Exit code of `main` and the steps it went through. -/
structure MainResult where
  exitCode : Int
  steps : List Step
deriving DecidableEq, Repr

/-- The data filled in by `for (int &x : data) x = dist(rng)`: `draw k` is the `k`-th
value of the fixed-seed generator. -/
def generateData (draw : Nat → Int) (size : Nat) : List Int :=
  (List.range size).map draw

/-- Embedding of `int main(int argc, char* argv[])`.  `N` and `threads` are the values
`std::atoi(argv[1])` and `std::atoi(argv[2])`.  The result is `none` when `main` does not
return: `std::vector<int> data(N)` with a negative `N` throws, and a failed checked
access is undefined behaviour. -/
def main (draw : Nat → Int) (sched : Nat → List Nat) (argc N threads : Int) :
    Option MainResult :=
  if argc < 3 then
    some { exitCode := 1, steps := [Step.usage] }
  else if N < 0 then
    none
  else
    match parallelOddEvenSort (generateData draw N.toNat) threads sched with
    | none => none
    | some r =>
      match isSorted r.arr with
      | none => none
      | some false =>
        some { exitCode := 1, steps := [Step.generate, Step.sort, Step.check, Step.reportFail] }
      | some true =>
        some { exitCode := 0, steps := [Step.generate, Step.sort, Step.check, Step.reportOk] }

/-- A stand-in for the generator in examples. -/
def sampleDraw : Nat → Int := fun k => ((7 * k + 3) % 5 : Nat)

/-! ## Reference functions used in the proofs -/

/-- The loop body for a natural-number index. -/
def cmpSwapN (k : Nat) (r : Run) : Option Run :=
  match r.arr[k]?, r.arr[k + 1]? with
  | some x, some y =>
    if x > y then
      some { r with arr := (r.arr.set k y).set (k + 1) x,
                    cmps := r.cmps + 1, swaps := r.swaps + 1 }
    else
      some { r with cmps := r.cmps + 1 }
  | _, _ => none

/-- One pass of compare-exchanges over the pairs `(0,1), (2,3), ...` of a list. -/
def evenPass : List Int → List Int
  | x :: y :: rest => if x > y then y :: x :: evenPass rest else x :: y :: evenPass rest
  | l => l

/-- One pass of compare-exchanges over the pairs `(1,2), (3,4), ...` of a list. -/
def oddPass : List Int → List Int
  | [] => []
  | x :: rest => x :: evenPass rest

/-- Number of exchanges made by `evenPass`. -/
def evenSwaps : List Int → Nat
  | x :: y :: rest => (if x > y then 1 else 0) + evenSwaps rest
  | _ => 0

/-- Number of exchanges made by `oddPass`. -/
def oddSwaps : List Int → Nat
  | [] => 0
  | _ :: rest => evenSwaps rest

/-- Number of entries greater than `v` among the first `i` entries. -/
def cnt (v : Int) (l : List Int) (i : Nat) : Nat :=
  (l.take i).countP (fun x => decide (v < x))

/-- One outer iteration on the first `m` entries, as a function on lists: odd pass, then
even pass, with the counters of the loops. -/
def seqRound (m : Nat) (r : Run) : Run :=
  { arr := evenPass (oddPass (r.arr.take m)) ++ r.arr.drop m,
    rounds := r.rounds + 1,
    cmps := r.cmps + (m - 1) / 2 + m / 2,
    swaps := r.swaps + oddSwaps (r.arr.take m) + evenSwaps (oddPass (r.arr.take m)) }

/-- The odd phase on the first `m` entries, as a function on lists, with the counters of
the loop. -/
def seqOddPhase (m : Nat) (r : Run) : Run :=
  { arr := oddPass (r.arr.take m) ++ r.arr.drop m,
    rounds := r.rounds,
    cmps := r.cmps + (m - 1) / 2,
    swaps := r.swaps + oddSwaps (r.arr.take m) }

/-- Odd pass followed by even pass. -/
def roundPass (l : List Int) : List Int := evenPass (oddPass l)

/-- Bound on the counts after some phases: at every cut `i` the entries above `v` among
the first `i` are none, or as few as in sorted order, or at most `(i + θ) / 2`. -/
def Inv (v : Int) (θ : Int) (l : List Int) : Prop :=
  ∀ i, i ≤ l.length →
    cnt v l i = 0 ∨ cnt v l i + l.length ≤ i + cnt v l l.length ∨
      2 * (cnt v l i : Int) ≤ (i : Int) + θ

/-- Adjacent entries are in non-decreasing order. -/
def NonDecreasing (l : List Int) : Prop :=
  ∀ i, (h : i + 1 < l.length) → l[i] ≤ l[i + 1]

/-- Number of outer iterations made on an array of the given size. -/
def roundsOf (size : Nat) : Nat := (toInt32 size).toNat

/-- The array `1, 0, 0, ..., 0` of `k + 2` entries; its first two entries are out of
order. -/
def unsortedOfSize (k : Nat) : List Int := 1 :: 0 :: List.replicate k 0

/-- Number of inversions, by recursion on the list: for each entry, the later entries
that are smaller. -/
def inversions : List Int → Nat
  | [] => 0
  | x :: l => l.countP (fun y => decide (x > y)) + inversions l

/-- Number of inversions counted over index pairs: the pairs `(i, k)` of positions with
`i < k` and `l[i] > l[k]`. -/
def inversionPairs (l : List Int) : Nat :=
  ((List.range l.length).map (fun i =>
    (List.range l.length).countP (fun k => decide (i < k ∧ l.getD i 0 > l.getD k 0)))).sum

/-- Every entry of `l` is found in `l2` at most `d` positions away. -/
def MovesAtMost (d : Nat) (l l2 : List Int) : Prop :=
  ∀ i, (h : i < l.length) → ∃ k, ∃ hk : k < l2.length, l2[k] = l[i] ∧ k ≤ i + d ∧ i ≤ k + d

/-- The array `0, 1, 0, ..., 0` of `k + 2` entries: its first two entries are in order,
the second and third are not (for `k ≥ 1`). -/
def prefixSortedOfSize (k : Nat) : List Int := 0 :: 1 :: List.replicate k 0

/-! ## Basic facts about the loop body -/

theorem cmpSwap_natCast (k : Nat) (r : Run) : cmpSwap (k : Int) r = cmpSwapN k r := by
  have h1 : ((k : Int) + 1).toNat = k + 1 := by omega
  have h2 : (0 : Int) ≤ (k : Int) + 1 := by omega
  simp [cmpSwap, cmpSwapN, vecGet, h1, h2]

theorem cmpSwap_neg (j : Int) (h : j < 0) (r : Run) : cmpSwap j r = none := by
  have : ¬ (0 : Int) ≤ j := by omega
  simp [cmpSwap, vecGet, this]

theorem cmpSwapN_eq_none (k : Nat) (r : Run) (h : r.arr.length ≤ k + 1) :
    cmpSwapN k r = none := by
  have : r.arr[k + 1]? = none := List.getElem?_eq_none (by omega)
  unfold cmpSwapN
  rw [this]
  split <;> simp_all

theorem cmpSwapN_length (k : Nat) (r r1 : Run) (h : cmpSwapN k r = some r1) :
    r1.arr.length = r.arr.length := by
  unfold cmpSwapN at h
  split at h
  · split at h <;> (cases h; simp)
  · cases h

theorem cmpSwapN_comm (k k2 : Nat) (h : k + 2 ≤ k2) (r : Run) :
    (cmpSwapN k r).bind (cmpSwapN k2) = (cmpSwapN k2 r).bind (cmpSwapN k) := by
  by_cases hk : k2 + 1 < r.arr.length
  · obtain ⟨a, ρ, c, s⟩ := r
    simp only at hk
    have e1 : a[k]? = some a[k] := List.getElem?_eq_getElem (by omega)
    have e2 : a[k + 1]? = some a[k + 1] := List.getElem?_eq_getElem (by omega)
    have e3 : a[k2]? = some a[k2] := List.getElem?_eq_getElem (by omega)
    have e4 : a[k2 + 1]? = some a[k2 + 1] := List.getElem?_eq_getElem (by omega)
    have n1 : k ≠ k2 := by omega
    have n2 : k ≠ k2 + 1 := by omega
    have n3 : k + 1 ≠ k2 := by omega
    have n4 : k + 1 ≠ k2 + 1 := by omega
    by_cases c1 : a[k] > a[k + 1] <;> by_cases c2 : a[k2] > a[k2 + 1] <;>
      simp [cmpSwapN, e1, e2, e3, e4, c1, c2, List.getElem?_set, n1, n2, n3, n4,
        n1.symm, n2.symm, n3.symm, n4.symm]
    apply List.ext_getElem?
    intro i
    simp only [List.getElem?_set, List.length_set]
    split_ifs <;> first | rfl | omega
  · rw [cmpSwapN_eq_none k2 r (by omega)]
    cases h1 : cmpSwapN k r with
    | none => rfl
    | some r1 =>
      have := cmpSwapN_length k r r1 h1
      simp [cmpSwapN_eq_none k2 r1 (by omega)]

theorem cmpSwap_comm (x y : Int) (h : x + 2 ≤ y) (r : Run) :
    (cmpSwap x r).bind (cmpSwap y) = (cmpSwap y r).bind (cmpSwap x) := by
  by_cases hx : x < 0
  · rw [cmpSwap_neg x hx r]
    cases cmpSwap y r with
    | none => rfl
    | some r1 => simp [cmpSwap_neg x hx r1]
  · obtain ⟨k, rfl⟩ := Int.eq_ofNat_of_zero_le (by omega : 0 ≤ x)
    obtain ⟨k2, rfl⟩ := Int.eq_ofNat_of_zero_le (by omega : 0 ≤ y)
    have f1 : cmpSwap (k : Int) = cmpSwapN k := funext (cmpSwap_natCast k)
    have f2 : cmpSwap (k2 : Int) = cmpSwapN k2 := funext (cmpSwap_natCast k2)
    rw [f1, f2]
    exact cmpSwapN_comm k k2 (by omega) r

theorem cmpSwap_step_comm (x y : Int) (h : x = y ∨ x + 2 ≤ y ∨ y + 2 ≤ x) (o : Option Run) :
    (o.bind (cmpSwap x)).bind (cmpSwap y) = (o.bind (cmpSwap y)).bind (cmpSwap x) := by
  cases o with
  | none => rfl
  | some r =>
    rcases h with h | h | h
    · subst h; rfl
    · exact cmpSwap_comm x y h r
    · exact (cmpSwap_comm y x h r).symm

/-- Loop bodies on pairwise non-adjacent pairs may be executed in any order. -/
theorem runIters_perm (l1 l2 : List Int) (p : l1.Perm l2)
    (sep : ∀ x ∈ l1, ∀ y ∈ l1, x = y ∨ x + 2 ≤ y ∨ y + 2 ≤ x) (r : Run) :
    runIters cmpSwap l1 r = runIters cmpSwap l2 r := by
  unfold runIters
  exact List.Perm.foldl_eq' p (fun x hx y hy z => cmpSwap_step_comm x y (sep x hx y hy) z) _

/-! ## The iteration space and its distribution over the team -/

theorem forIters_fuel (ub : Int) (f1 : Nat) :
    ∀ (f2 : Nat) (j : Int), (ub - j).toNat ≤ f1 → (ub - j).toNat ≤ f2 →
      forIters ub j f1 = forIters ub j f2 := by
  induction f1 with
  | zero =>
    intro f2 j h1 _
    have hj : ¬ j < ub := by omega
    cases f2 <;> simp [forIters, hj]
  | succ f1 ih =>
    intro f2 j h1 h2
    cases f2 with
    | zero =>
      have hj : ¬ j < ub := by omega
      simp [forIters, hj]
    | succ f2 =>
      by_cases hj : j < ub
      · simp only [forIters, hj, if_true]
        rw [ih f2 (j + 2) (by omega) (by omega)]
      · simp [forIters, hj]

theorem ompIters_unfold (lb ub : Int) :
    ompIters lb ub = if lb < ub then lb :: ompIters (lb + 2) ub else [] := by
  unfold ompIters
  by_cases h : lb < ub
  · obtain ⟨f, hf⟩ : ∃ f, (ub - lb).toNat = f + 1 := ⟨(ub - lb).toNat - 1, by omega⟩
    rw [hf]
    simp only [forIters, h, if_true]
    rw [forIters_fuel ub f (ub - (lb + 2)).toNat (lb + 2) (by omega) (le_refl _)]
  · have : (ub - lb).toNat = 0 := by omega
    simp [this, forIters, h]

theorem mem_ompIters (ub : Int) (m : Nat) :
    ∀ (lb j : Int), (ub - lb).toNat ≤ m → j ∈ ompIters lb ub →
      lb ≤ j ∧ j < ub ∧ (j - lb) % 2 = 0 := by
  induction m with
  | zero =>
    intro lb j h hj
    rw [ompIters_unfold] at hj
    have : ¬ lb < ub := by omega
    simp [this] at hj
  | succ m ih =>
    intro lb j h hj
    rw [ompIters_unfold] at hj
    by_cases hlt : lb < ub
    · simp only [hlt, if_true, List.mem_cons] at hj
      rcases hj with rfl | hj
      · simp [hlt]
      · have := ih (lb + 2) j (by omega) hj
        omega
    · simp [hlt] at hj

theorem ompIters_sep (lb ub : Int) :
    ∀ x ∈ ompIters lb ub, ∀ y ∈ ompIters lb ub, x = y ∨ x + 2 ≤ y ∨ y + 2 ≤ x := by
  intro x hx y hy
  have h1 := mem_ompIters ub _ lb x (le_refl _) hx
  have h2 := mem_ompIters ub _ lb y (le_refl _) hy
  omega

theorem flatten_set_perm (chunks : List (List Int)) :
    ∀ (tid : Nat) (j : Int) (pending : List Int), chunks[tid]? = some (j :: pending) →
      chunks.flatten.Perm (j :: (chunks.set tid pending).flatten) := by
  induction chunks with
  | nil => intro tid j pending h; simp at h
  | cons c cs ih =>
    intro tid j pending h
    cases tid with
    | zero =>
      simp only [List.getElem?_cons_zero, Option.some.injEq] at h
      subst h
      simp
    | succ tid =>
      simp only [List.getElem?_cons_succ] at h
      have := ih tid j pending h
      simp only [List.flatten_cons, List.set_cons_succ]
      exact (List.Perm.append_left c this).trans List.perm_middle

theorem interleave_perm (ticks : List Nat) :
    ∀ chunks : List (List Int), (interleave ticks chunks).Perm chunks.flatten := by
  induction ticks with
  | nil => intro chunks; simp [interleave]
  | cons tid ticks ih =>
    intro chunks
    unfold interleave
    split
    · next j pending hget =>
      exact ((ih _).cons j).trans (flatten_set_perm chunks tid j pending hget).symm
    · exact ih chunks

theorem splitBy_flatten (sizes : List Nat) :
    ∀ l : List Int, (splitBy sizes l).flatten = l.take sizes.sum := by
  induction sizes with
  | nil => intro l; simp [splitBy]
  | cons s ss ih =>
    intro l
    simp [splitBy, ih, List.take_add]

theorem staticSizes_sum_aux (q r : Nat) (t : Nat) :
    ((List.range t).map (fun i => if i < r then q + 1 else q)).sum = t * q + min r t := by
  induction t with
  | zero => simp
  | succ t ih =>
    rw [List.range_succ, List.map_append, List.sum_append, ih]
    by_cases h : t < r
    · simp [h]; rw [Nat.min_eq_right (by omega), Nat.min_eq_right (by omega)]; ring
    · simp [h]; rw [Nat.min_eq_left (by omega), Nat.min_eq_left (by omega)]; ring

theorem staticSizes_sum (t c : Nat) (ht : 1 ≤ t) : (staticSizes t c).sum = c := by
  unfold staticSizes
  rw [staticSizes_sum_aux, Nat.min_eq_left (Nat.le_of_lt (Nat.mod_lt c (by omega)))]
  exact Nat.div_add_mod c t

theorem staticChunks_flatten (t : Nat) (ht : 1 ≤ t) (iters : List Int) :
    (staticChunks t iters).flatten = iters := by
  unfold staticChunks
  rw [splitBy_flatten, staticSizes_sum t _ ht, List.take_length]

theorem teamSize_pos (num_threads : Int) : 1 ≤ teamSize num_threads := by
  unfold teamSize
  split <;> omega

/-- A parallel loop over compare-exchanges gives the result of the sequential loop, for
every team size and schedule. -/
theorem ompParallelFor_eq (team : Nat) (ht : 1 ≤ team) (ticks : List Nat) (lb ub : Int)
    (r : Run) :
    ompParallelFor team ticks lb ub cmpSwap r = runIters cmpSwap (ompIters lb ub) r := by
  unfold ompParallelFor
  have p : (interleave ticks (staticChunks team (ompIters lb ub))).Perm (ompIters lb ub) := by
    have := interleave_perm ticks (staticChunks team (ompIters lb ub))
    rwa [staticChunks_flatten team ht] at this
  exact (runIters_perm _ _ p.symm (ompIters_sep lb ub) r).symm

/-! ## The phases as list functions -/

theorem length_evenPass : ∀ l : List Int, (evenPass l).length = l.length
  | [] => rfl
  | [_] => rfl
  | x :: y :: rest => by
    unfold evenPass
    split <;> simp [length_evenPass rest]

theorem length_oddPass (l : List Int) : (oddPass l).length = l.length := by
  cases l with
  | nil => rfl
  | cons x rest => simp [oddPass, length_evenPass]

theorem runIters_nil (body : Int → Run → Option Run) (r : Run) :
    runIters body [] r = some r := rfl

theorem foldl_bind_none (body : Int → Run → Option Run) (js : List Int) :
    js.foldl (fun o j => o.bind (body j)) none = none := by
  induction js with
  | nil => rfl
  | cons j js ih => simpa using ih

theorem runIters_cons (body : Int → Run → Option Run) (j : Int) (js : List Int) (r : Run) :
    runIters body (j :: js) r = (body j r).bind (runIters body js) := by
  unfold runIters
  simp only [List.foldl_cons, Option.some_bind]
  cases body j r with
  | none => simpa using foldl_bind_none body js
  | some r1 => rfl

theorem cmpSwapN_append (pre suf : List Int) (x y : Int) (ρ c s : Nat) :
    cmpSwapN pre.length ⟨pre ++ x :: y :: suf, ρ, c, s⟩ =
      some ⟨pre ++ (if x > y then y :: x :: suf else x :: y :: suf), ρ, c + 1,
        s + (if x > y then 1 else 0)⟩ := by
  have e1 : (pre ++ x :: y :: suf)[pre.length]? = some x := by
    rw [List.getElem?_append_right (le_refl _)]; simp
  have e2 : (pre ++ x :: y :: suf)[pre.length + 1]? = some y := by
    rw [List.getElem?_append_right (by omega)]; simp
  unfold cmpSwapN
  simp only [e1, e2]
  by_cases h : x > y
  · simp only [h, if_true, Option.some.injEq, Run.mk.injEq, and_true, true_and]
    rw [List.set_append_right _ _ (le_refl _), List.set_append_right _ _ (by simp)]
    simp
  · simp [h]

/-- The even-style loop started at offset `pre.length` acts as `evenPass` on the middle
part of the array. -/
theorem runIters_evenPass :
    ∀ (l pre suf : List Int) (ρ c s : Nat),
      runIters cmpSwap (ompIters pre.length (pre.length + l.length - 1))
          ⟨pre ++ l ++ suf, ρ, c, s⟩ =
        some ⟨pre ++ evenPass l ++ suf, ρ, c + l.length / 2, s + evenSwaps l⟩
  | [], pre, suf, ρ, c, s => by
    rw [ompIters_unfold, if_neg (by simp)]
    simp [runIters_nil, evenPass, evenSwaps]
  | [x], pre, suf, ρ, c, s => by
    rw [ompIters_unfold, if_neg (by simp)]
    simp [runIters_nil, evenPass, evenSwaps]
  | x :: y :: rest, pre, suf, ρ, c, s => by
    rw [ompIters_unfold]
    have hlt : (pre.length : Int) < pre.length + ((x :: y :: rest).length : Int) - 1 := by
      simp only [List.length_cons]; push_cast; omega
    simp only [hlt, if_true, runIters_cons, cmpSwap_natCast]
    have e0 : pre ++ x :: y :: rest ++ suf = pre ++ x :: y :: (rest ++ suf) := by simp
    rw [e0, cmpSwapN_append, Option.some_bind]
    by_cases h : x > y
    · have ih := runIters_evenPass rest (pre ++ [y, x]) suf ρ (c + 1) (s + 1)
      have e1 : ((pre ++ [y, x]).length : Int) = (pre.length : Int) + 2 := by simp
      have e2 : ((pre ++ [y, x]).length : Int) + (rest.length : Int) - 1 =
          pre.length + ((x :: y :: rest).length : Int) - 1 := by
        simp only [List.length_append, List.length_cons, List.length_nil]; push_cast; ring
      rw [e2, e1] at ih
      simp only [h, if_true]
      have e3 : pre ++ y :: x :: (rest ++ suf) = pre ++ [y, x] ++ rest ++ suf := by simp
      rw [e3, ih]
      simp only [evenPass, evenSwaps, h, if_true, List.length_cons, Option.some.injEq,
        Run.mk.injEq, true_and]
      refine ⟨by simp, by omega, by omega⟩
    · have ih := runIters_evenPass rest (pre ++ [x, y]) suf ρ (c + 1) s
      have e1 : ((pre ++ [x, y]).length : Int) = (pre.length : Int) + 2 := by simp
      have e2 : ((pre ++ [x, y]).length : Int) + (rest.length : Int) - 1 =
          pre.length + ((x :: y :: rest).length : Int) - 1 := by
        simp only [List.length_append, List.length_cons, List.length_nil]; push_cast; ring
      rw [e2, e1] at ih
      simp only [h, if_false, Nat.add_zero]
      have e3 : pre ++ x :: y :: (rest ++ suf) = pre ++ [x, y] ++ rest ++ suf := by simp
      rw [e3, ih]
      simp only [evenPass, evenSwaps, h, if_false, List.length_cons, Option.some.injEq,
        Run.mk.injEq, true_and]
      refine ⟨by simp, by omega, by omega⟩

theorem evenPhase_eq (m : Nat) (team : Nat) (ht : 1 ≤ team) (ticks : List Nat) (r : Run)
    (hm : m ≤ r.arr.length) :
    evenPhase (m : Int) team ticks r =
      some ⟨evenPass (r.arr.take m) ++ r.arr.drop m, r.rounds, r.cmps + m / 2,
        r.swaps + evenSwaps (r.arr.take m)⟩ := by
  unfold evenPhase
  rw [ompParallelFor_eq team ht]
  have h := runIters_evenPass (r.arr.take m) [] (r.arr.drop m) r.rounds r.cmps r.swaps
  have hl : (r.arr.take m).length = m := by simp [hm]
  simp only [List.nil_append, List.take_append_drop, List.length_nil, hl] at h
  have e : ((0 : Nat) : Int) + (m : Int) - 1 = (m : Int) - 1 := by simp
  rw [e] at h
  exact h

theorem oddPhase_eq (m : Nat) (team : Nat) (ht : 1 ≤ team) (ticks : List Nat) (r : Run)
    (hm : m ≤ r.arr.length) :
    oddPhase (m : Int) team ticks r =
      some ⟨oddPass (r.arr.take m) ++ r.arr.drop m, r.rounds, r.cmps + (m - 1) / 2,
        r.swaps + oddSwaps (r.arr.take m)⟩ := by
  unfold oddPhase
  rw [ompParallelFor_eq team ht]
  have hl : (r.arr.take m).length = m := by simp [hm]
  cases hc : r.arr.take m with
  | nil =>
    have hm0 : m = 0 := by rw [hc] at hl; simpa using hl.symm
    subst hm0
    rw [ompIters_unfold, if_neg (by simp)]
    simp [runIters_nil, oddPass, oddSwaps]
  | cons x rest =>
    have h := runIters_evenPass rest [x] (r.arr.drop m) r.rounds r.cmps r.swaps
    have hr : rest.length = m - 1 := by rw [hc] at hl; simp at hl; omega
    have hm1 : 1 ≤ m := by rw [hc] at hl; simp at hl; omega
    have e0 : [x] ++ rest ++ r.arr.drop m = r.arr := by
      have := List.take_append_drop m r.arr
      rw [hc] at this
      simpa using this
    have e1 : (([x] : List Int).length : Int) = 1 := by simp
    have e2 : (([x] : List Int).length : Int) + (rest.length : Int) - 1 = (m : Int) - 1 := by
      rw [hr]; simp; omega
    rw [e0, e2, e1] at h
    rw [h, hr]
    simp [oddPass, oddSwaps]

theorem seqRound_length (m : Nat) (r : Run) : (seqRound m r).arr.length = r.arr.length := by
  simp only [seqRound, List.length_append, length_evenPass, length_oddPass, List.length_take,
    List.length_drop]
  omega

theorem iterate_seqRound_length (m k : Nat) (r : Run) :
    ((seqRound m)^[k] r).arr.length = r.arr.length := by
  induction k with
  | zero => rfl
  | succ k ih => rw [Function.iterate_succ_apply', seqRound_length, ih]

/-- One outer iteration of the code is `seqRound`, for every team size and schedule. -/
theorem outerBody_eq (m : Nat) (team : Nat) (ht : 1 ≤ team) (sched : Nat → List Nat)
    (i : Nat) (r : Run) (hm : m ≤ r.arr.length) :
    outerBody (m : Int) team sched i r = some (seqRound m r) := by
  unfold outerBody
  rw [oddPhase_eq m team ht _ r hm, Option.some_bind, evenPhase_eq m team ht]
  · have hl : (oddPass (r.arr.take m)).length = m := by simp [length_oddPass, hm]
    simp only [Option.map_some', seqRound, Option.some.injEq, Run.mk.injEq, and_true,
      true_and]
    rw [List.take_left' hl, List.drop_left' hl]
    simp
  · simp [length_oddPass]; omega

theorem toInt32_le (x : Nat) : toInt32 x ≤ (x : Int) := by
  unfold toInt32
  split <;> omega

theorem toInt32_of_lt (x : Nat) (h : x < 2 ^ 31) : toInt32 x = (x : Int) := by
  unfold toInt32
  split <;> omega

theorem roundsOf_le (x : Nat) : roundsOf x ≤ x := by
  have := toInt32_le x
  unfold roundsOf
  omega

theorem roundsOf_of_lt (x : Nat) (h : x < 2 ^ 31) : roundsOf x = x := by
  unfold roundsOf
  rw [toInt32_of_lt x h]
  simp

theorem foldl_outerBody (n : Int) (m : Nat) (hn : 1 ≤ n → n = (m : Int)) (team : Nat)
    (ht : 1 ≤ team) (sched : Nat → List Nat) (r : Run) (hm : m ≤ r.arr.length) (k : Nat)
    (hk : 1 ≤ k → 1 ≤ n) :
    (List.range k).foldl (fun o i => o.bind (outerBody n team sched i)) (some r) =
      some ((seqRound m)^[k] r) := by
  induction k with
  | zero => rfl
  | succ k ih =>
    have hn1 : n = (m : Int) := hn (hk (by omega))
    rw [List.range_succ, List.foldl_append, ih (fun _ => by omega)]
    simp only [List.foldl_cons, List.foldl_nil, Option.some_bind]
    rw [hn1, outerBody_eq m team ht sched k _ (by rw [iterate_seqRound_length]; exact hm),
      Function.iterate_succ_apply']

/-- The sort is `roundsOf n` applications of `seqRound`, for every thread count and
schedule. -/
theorem parallelOddEvenSort_eq (a : List Int) (t : Int) (sched : Nat → List Nat) :
    parallelOddEvenSort a t sched =
      some ((seqRound (roundsOf a.length))^[roundsOf a.length] ⟨a, 0, 0, 0⟩) := by
  unfold parallelOddEvenSort
  exact foldl_outerBody (toInt32 a.length) (roundsOf a.length)
    (fun h => by unfold roundsOf; omega) (teamSize t) (teamSize_pos t) sched ⟨a, 0, 0, 0⟩
    (roundsOf_le a.length) (roundsOf a.length) (fun h => by unfold roundsOf at h; omega)

/-! ## Counting the entries above a threshold -/

theorem cnt_zero (v : Int) (l : List Int) : cnt v l 0 = 0 := by simp [cnt]

theorem cnt_nil (v : Int) (i : Nat) : cnt v [] i = 0 := by simp [cnt]

theorem cnt_cons_succ (v x : Int) (l : List Int) (i : Nat) :
    cnt v (x :: l) (i + 1) = (if v < x then 1 else 0) + cnt v l i := by
  simp only [cnt, List.take_succ_cons, List.countP_cons, decide_eq_true_eq]
  omega

theorem cnt_step (v : Int) : ∀ (l : List Int) (i : Nat),
    cnt v l i ≤ cnt v l (i + 1) ∧ cnt v l (i + 1) ≤ cnt v l i + 1
  | [], i => by simp [cnt_nil]
  | x :: l, 0 => by
    rw [cnt_cons_succ, cnt_zero, cnt_zero]; split <;> simp
  | x :: l, i + 1 => by
    rw [cnt_cons_succ, cnt_cons_succ]
    have := cnt_step v l i
    omega

theorem cnt_le (v : Int) (l : List Int) (i : Nat) : cnt v l i ≤ i := by
  induction i with
  | zero => simp [cnt_zero]
  | succ i ih => have := cnt_step v l i; omega

theorem cnt_mono (v : Int) (l : List Int) (i j : Nat) (h : i ≤ j) : cnt v l i ≤ cnt v l j := by
  induction j with
  | zero =>
    have : i = 0 := by omega
    rw [this]
  | succ j ih =>
    by_cases hij : i = j + 1
    · rw [hij]
    · have := cnt_step v l j
      have := ih (by omega)
      omega

theorem cnt_tail (v : Int) (l : List Int) (i j : Nat) (h : i ≤ j) :
    cnt v l j ≤ cnt v l i + (j - i) := by
  induction j with
  | zero =>
    have : i = 0 := by omega
    rw [this]
    omega
  | succ j ih =>
    by_cases hij : i = j + 1
    · rw [hij]; omega
    · have := cnt_step v l j
      have := ih (by omega)
      omega

theorem cnt_cons_one (v x : Int) (l : List Int) :
    cnt v (x :: l) 1 = if v < x then 1 else 0 := by
  have := cnt_cons_succ v x l 0
  rw [cnt_zero] at this
  simpa using this

theorem evenPass_cons_cons (x y : Int) (rest : List Int) :
    evenPass (x :: y :: rest) =
      if x > y then y :: x :: evenPass rest else x :: y :: evenPass rest := by
  simp [evenPass]

theorem cnt_cons_cons (v x y : Int) (l : List Int) (i : Nat) :
    cnt v (x :: y :: l) (i + 2) =
      (if v < x then 1 else 0) + (if v < y then 1 else 0) + cnt v l i := by
  have e : i + 2 = (i + 1) + 1 := rfl
  rw [e, cnt_cons_succ, cnt_cons_succ]
  omega

theorem cnt_evenPass (v : Int) : ∀ (l : List Int) (i : Nat),
    cnt v (evenPass l) i =
      if i % 2 = 1 ∧ i < l.length then max (cnt v l (i - 1)) (cnt v l (i + 1) - 1)
      else cnt v l i
  | [], i => by simp [evenPass]
  | [x], i => by
    rw [if_neg (by simp only [List.length_singleton]; omega)]
    rfl
  | x :: y :: rest, 0 => by simp [cnt_zero]
  | x :: y :: rest, 1 => by
    have hc : 1 % 2 = 1 ∧ 1 < (x :: y :: rest).length := ⟨by omega, by simp⟩
    rw [if_pos hc, evenPass_cons_cons]
    have e2 : cnt v (x :: y :: rest) (1 + 1) =
        (if v < x then 1 else 0) + (if v < y then 1 else 0) := by
      rw [cnt_cons_succ, cnt_cons_one]
    rw [e2, Nat.sub_self, cnt_zero]
    split_ifs <;> simp only [cnt_cons_one] <;> split_ifs <;> omega
  | x :: y :: rest, i + 2 => by
    have ih := cnt_evenPass v rest i
    have hL : cnt v (evenPass (x :: y :: rest)) (i + 2) =
        (if v < x then 1 else 0) + (if v < y then 1 else 0) + cnt v (evenPass rest) i := by
      rw [evenPass_cons_cons]
      split_ifs <;> rw [cnt_cons_cons] <;> split_ifs <;> omega
    rw [hL, ih]
    by_cases hact : i % 2 = 1 ∧ i < rest.length
    · have hc : (i + 2) % 2 = 1 ∧ i + 2 < (x :: y :: rest).length :=
        ⟨by omega, by simp only [List.length_cons]; omega⟩
      rw [if_pos hc, if_pos hact]
      have e1 : i + 2 - 1 = (i - 1) + 2 := by omega
      have e2 : i + 2 + 1 = (i + 1) + 2 := by omega
      rw [e1, e2, cnt_cons_cons, cnt_cons_cons]
      split_ifs <;> omega
    · have hc : ¬ ((i + 2) % 2 = 1 ∧ i + 2 < (x :: y :: rest).length) := by
        simp only [List.length_cons]; omega
      rw [if_neg hc, if_neg hact, cnt_cons_cons]

theorem cnt_oddPass (v : Int) (l : List Int) (i : Nat) :
    cnt v (oddPass l) i =
      if i % 2 = 0 ∧ 2 ≤ i ∧ i < l.length then max (cnt v l (i - 1)) (cnt v l (i + 1) - 1)
      else cnt v l i := by
  cases l with
  | nil => simp [oddPass]
  | cons x rest =>
    cases i with
    | zero => simp [cnt_zero]
    | succ i =>
      have hE := cnt_evenPass v rest i
      simp only [oddPass]
      rw [cnt_cons_succ, hE]
      by_cases hact : i % 2 = 1 ∧ i < rest.length
      · have hc : (i + 1) % 2 = 0 ∧ 2 ≤ i + 1 ∧ i + 1 < (x :: rest).length :=
          ⟨by omega, by omega, by simp only [List.length_cons]; omega⟩
        rw [if_pos hact, if_pos hc]
        have e1 : i + 1 - 1 = (i - 1) + 1 := by omega
        rw [e1, cnt_cons_succ, cnt_cons_succ]
        split_ifs <;> omega
      · have hc : ¬ ((i + 1) % 2 = 0 ∧ 2 ≤ i + 1 ∧ i + 1 < (x :: rest).length) := by
          simp only [List.length_cons]; omega
        rw [if_neg hact, if_neg hc, cnt_cons_succ]

theorem cnt_evenPass_length (v : Int) (l : List Int) :
    cnt v (evenPass l) l.length = cnt v l l.length := by
  rw [cnt_evenPass, if_neg (by omega)]

theorem cnt_oddPass_length (v : Int) (l : List Int) :
    cnt v (oddPass l) l.length = cnt v l l.length := by
  rw [cnt_oddPass, if_neg (by omega)]

/-! ## The invariant of the phases -/

theorem inv_evenPass (v θ : Int) (l : List Int) (hθ : θ % 2 = 1) (h : Inv v θ l) :
    Inv v (θ - 1) (evenPass l) := by
  intro i hi
  rw [length_evenPass] at hi ⊢
  rw [cnt_evenPass_length, cnt_evenPass]
  by_cases hact : i % 2 = 1 ∧ i < l.length
  · rw [if_pos hact]
    have h1 := h (i - 1) (by omega)
    have h2 := h (i + 1) (by omega)
    omega
  · rw [if_neg hact]
    have h0 := h i hi
    have hn : i = l.length → cnt v l i = cnt v l l.length := fun e => by rw [e]
    omega

theorem inv_oddPass (v θ : Int) (l : List Int) (hθ : θ % 2 = 0) (h : Inv v θ l) :
    Inv v (θ - 1) (oddPass l) := by
  intro i hi
  rw [length_oddPass] at hi ⊢
  rw [cnt_oddPass_length, cnt_oddPass]
  by_cases hact : i % 2 = 0 ∧ 2 ≤ i ∧ i < l.length
  · rw [if_pos hact]
    have h1 := h (i - 1) (by omega)
    have h2 := h (i + 1) (by omega)
    omega
  · rw [if_neg hact]
    have h0 := h i hi
    have hz := cnt_zero v l
    have hn : i = l.length → cnt v l i = cnt v l l.length := fun e => by rw [e]
    by_cases hi0 : i = 0
    · left; rw [hi0]; exact hz
    · omega

theorem length_roundPass (l : List Int) : (roundPass l).length = l.length := by
  simp [roundPass, length_evenPass, length_oddPass]

theorem inv_roundPass (v θ : Int) (l : List Int) (hθ : θ % 2 = 0) (h : Inv v θ l) :
    Inv v (θ - 2) (roundPass l) := by
  have h1 := inv_oddPass v θ l hθ h
  have h2 := inv_evenPass v (θ - 1) (oddPass l) (by omega) h1
  have e : θ - 1 - 1 = θ - 2 := by ring
  rw [e] at h2
  exact h2

theorem length_iterate_roundPass (k : Nat) (l : List Int) :
    (roundPass^[k] l).length = l.length := by
  induction k with
  | zero => rfl
  | succ k ih => rw [Function.iterate_succ_apply', length_roundPass, ih]

theorem inv_iterate (v θ : Int) (l : List Int) (hθ : θ % 2 = 0) (h : Inv v θ l) (k : Nat) :
    Inv v (θ - 2 * k) (roundPass^[k] l) := by
  induction k with
  | zero => simpa using h
  | succ k ih =>
    rw [Function.iterate_succ_apply']
    have := inv_roundPass v (θ - 2 * k) _ (by omega) ih
    have e : θ - 2 * (k : Int) - 2 = θ - 2 * ((k + 1 : Nat) : Int) := by push_cast; ring
    rw [e] at this
    exact this

theorem inv_init (v : Int) (l : List Int) :
    Inv v (2 * (((cnt v l l.length + 1) / 2 : Nat) : Int)) l := by
  intro i hi
  right; right
  have h1 := cnt_le v l i
  have h2 := cnt_mono v l i l.length hi
  omega

theorem cnt_roundPass_length (v : Int) (l : List Int) :
    cnt v (roundPass l) l.length = cnt v l l.length := by
  unfold roundPass
  have := cnt_evenPass_length v (oddPass l)
  rw [length_oddPass] at this
  rw [this, cnt_oddPass_length]

theorem cnt_iterate_length (v : Int) (k : Nat) (l : List Int) :
    cnt v (roundPass^[k] l) l.length = cnt v l l.length := by
  induction k with
  | zero => rfl
  | succ k ih =>
    rw [Function.iterate_succ_apply']
    have := cnt_roundPass_length v (roundPass^[k] l)
    rw [length_iterate_roundPass] at this
    rw [this, ih]

/-- After `k` rounds with `2 * k ≥ length`, the entries above any threshold are placed as
in sorted order. -/
theorem cnt_sorted_of_rounds (v : Int) (l : List Int) (k : Nat) (hk : l.length ≤ 2 * k)
    (i : Nat) (hi : i ≤ l.length) :
    cnt v (roundPass^[k] l) i = 0 ∨
      cnt v (roundPass^[k] l) i + l.length ≤ i + cnt v l l.length := by
  have h := inv_iterate v _ l (by omega) (inv_init v l) k i
    (by rw [length_iterate_roundPass]; exact hi)
  rw [length_iterate_roundPass, cnt_iterate_length] at h
  have h1 := cnt_le v l l.length
  omega

theorem cnt_succ_of_lt (v : Int) : ∀ (l : List Int) (i : Nat) (h : i < l.length),
    cnt v l (i + 1) = cnt v l i + (if v < l[i] then 1 else 0)
  | [], i, h => by simp at h
  | x :: l, 0, h => by rw [cnt_cons_succ, cnt_zero, cnt_zero]; simp
  | x :: l, i + 1, h => by
    rw [cnt_cons_succ, cnt_cons_succ, cnt_succ_of_lt v l i (by simpa using h)]
    simp only [List.getElem_cons_succ]
    omega

theorem nonDecreasing_of_cnt (l : List Int)
    (h : ∀ v i, i ≤ l.length → cnt v l i = 0 ∨ cnt v l i + l.length ≤ i + cnt v l l.length) :
    NonDecreasing l := by
  intro i hi
  by_contra hlt
  have hlt : l[i + 1] < l[i] := by omega
  have s1 := cnt_succ_of_lt l[i + 1] l i (by omega)
  have s2 := cnt_succ_of_lt l[i + 1] l (i + 1) hi
  rw [if_pos hlt] at s1
  rw [if_neg (lt_irrefl _)] at s2
  have h1 := h l[i + 1] (i + 1) (by omega)
  have h2 := cnt_tail l[i + 1] l (i + 1 + 1) l.length (by omega)
  omega

theorem sorted_of_nonDecreasing (l : List Int) (h : NonDecreasing l) :
    l.Sorted (· ≤ ·) := by
  unfold List.Sorted
  rw [← List.chain'_iff_pairwise, List.chain'_iff_get]
  intro i hi
  exact h i (by omega)

theorem nonDecreasing_of_sorted (l : List Int) (h : l.Sorted (· ≤ ·)) : NonDecreasing l := by
  intro i hi
  exact h.rel_get_of_lt (a := ⟨i, by omega⟩) (b := ⟨i + 1, hi⟩) (by simp)

/-- Enough rounds sort: `k` rounds with `2 * k ≥ length` leave the list in non-decreasing
order. -/
theorem roundPass_sorts (l : List Int) (k : Nat) (hk : l.length ≤ 2 * k) :
    NonDecreasing (roundPass^[k] l) := by
  apply nonDecreasing_of_cnt
  intro v i hi
  rw [length_iterate_roundPass] at hi ⊢
  rw [cnt_iterate_length]
  exact cnt_sorted_of_rounds v l k hk i hi

/-! ## Permutation and fixed points of the passes -/

theorem evenPass_perm : ∀ l : List Int, (evenPass l).Perm l
  | [] => List.Perm.refl _
  | [_] => List.Perm.refl _
  | x :: y :: rest => by
    rw [evenPass_cons_cons]
    split
    · exact (List.Perm.swap x y _).trans (((evenPass_perm rest).cons y).cons x)
    · exact ((evenPass_perm rest).cons y).cons x

theorem oddPass_perm (l : List Int) : (oddPass l).Perm l := by
  cases l with
  | nil => exact List.Perm.refl _
  | cons x rest => exact (evenPass_perm rest).cons x

theorem roundPass_perm (l : List Int) : (roundPass l).Perm l :=
  (evenPass_perm _).trans (oddPass_perm l)

theorem iterate_roundPass_perm (k : Nat) (l : List Int) : (roundPass^[k] l).Perm l := by
  induction k with
  | zero => exact List.Perm.refl _
  | succ k ih =>
    rw [Function.iterate_succ_apply']
    exact (roundPass_perm _).trans ih

theorem evenPass_of_sorted : ∀ l : List Int, l.Sorted (· ≤ ·) → evenPass l = l ∧ evenSwaps l = 0
  | [], _ => ⟨rfl, rfl⟩
  | [_], _ => ⟨rfl, rfl⟩
  | x :: y :: rest, h => by
    have hxy : x ≤ y := List.rel_of_sorted_cons h y (List.mem_cons_self _ _)
    have hrest : rest.Sorted (· ≤ ·) := h.tail.tail
    have ih := evenPass_of_sorted rest hrest
    have hn : ¬ x > y := by omega
    rw [evenPass_cons_cons]
    simp [evenSwaps, hn, ih.1, ih.2]

theorem oddPass_of_sorted (l : List Int) (h : l.Sorted (· ≤ ·)) :
    oddPass l = l ∧ oddSwaps l = 0 := by
  cases l with
  | nil => exact ⟨rfl, rfl⟩
  | cons x rest =>
    have ih := evenPass_of_sorted rest h.tail
    simp [oddPass, oddSwaps, ih.1, ih.2]

theorem roundPass_of_sorted (l : List Int) (h : l.Sorted (· ≤ ·)) : roundPass l = l := by
  unfold roundPass
  rw [(oddPass_of_sorted l h).1, (evenPass_of_sorted l h).1]

theorem iterate_roundPass_of_sorted (k : Nat) (l : List Int) (h : l.Sorted (· ≤ ·)) :
    roundPass^[k] l = l := by
  induction k with
  | zero => rfl
  | succ k ih => rw [Function.iterate_succ_apply', ih, roundPass_of_sorted l h]

/-! ## The result of the sort -/

theorem seqRound_arr (m : Nat) (r : Run) :
    (seqRound m r).arr = roundPass (r.arr.take m) ++ r.arr.drop m := rfl

theorem iterate_seqRound_arr (m k : Nat) (r : Run) (hm : m ≤ r.arr.length) :
    ((seqRound m)^[k] r).arr = roundPass^[k] (r.arr.take m) ++ r.arr.drop m := by
  induction k with
  | zero => simp
  | succ k ih =>
    rw [Function.iterate_succ_apply', Function.iterate_succ_apply', seqRound_arr, ih]
    have hl : (roundPass^[k] (r.arr.take m)).length = m := by
      rw [length_iterate_roundPass]; simp [hm]
    rw [List.take_left' hl, List.drop_left' hl]

theorem iterate_seqRound_rounds (m k : Nat) (r : Run) :
    ((seqRound m)^[k] r).rounds = r.rounds + k := by
  induction k with
  | zero => rfl
  | succ k ih =>
    rw [Function.iterate_succ_apply']
    show ((seqRound m)^[k] r).rounds + 1 = _
    omega

theorem iterate_seqRound_cmps (m k : Nat) (r : Run) :
    ((seqRound m)^[k] r).cmps = r.cmps + k * ((m - 1) / 2 + m / 2) := by
  induction k with
  | zero => simp
  | succ k ih =>
    rw [Function.iterate_succ_apply']
    show ((seqRound m)^[k] r).cmps + (m - 1) / 2 + m / 2 = _
    rw [ih]
    ring

theorem seqRound_of_sorted (m : Nat) (r : Run) (h : (r.arr.take m).Sorted (· ≤ ·)) :
    seqRound m r = { r with rounds := r.rounds + 1, cmps := r.cmps + (m - 1) / 2 + m / 2 } := by
  have h1 := oddPass_of_sorted _ h
  have h2 := evenPass_of_sorted _ h
  simp [seqRound, h1.1, h1.2, h2.1, h2.2]

theorem iterate_seqRound_of_sorted (m k : Nat) (r : Run) (h : (r.arr.take m).Sorted (· ≤ ·)) :
    ((seqRound m)^[k] r).arr = r.arr ∧ ((seqRound m)^[k] r).swaps = r.swaps := by
  induction k with
  | zero => exact ⟨rfl, rfl⟩
  | succ k ih =>
    rw [Function.iterate_succ_apply', seqRound_of_sorted m _ (by rw [ih.1]; exact h)]
    exact ih

/-- Array left by the sort, for every thread count and schedule: the first `roundsOf n`
entries have gone through `roundsOf n` rounds and the others are untouched. -/
theorem parallelOddEvenSort_arr (a : List Int) (t : Int) (sched : Nat → List Nat) :
    ∃ r, parallelOddEvenSort a t sched = some r ∧
      r.arr = roundPass^[roundsOf a.length] (a.take (roundsOf a.length)) ++
        a.drop (roundsOf a.length) ∧
      r.rounds = roundsOf a.length := by
  refine ⟨_, parallelOddEvenSort_eq a t sched, ?_, ?_⟩
  · rw [iterate_seqRound_arr _ _ _ (roundsOf_le a.length)]
  · rw [iterate_seqRound_rounds]; simp

theorem cmpSwapN_isSome (k : Nat) (r : Run) (h : k + 1 < r.arr.length) :
    (cmpSwapN k r).isSome := by
  have e1 : r.arr[k]? = some r.arr[k] := List.getElem?_eq_getElem (by omega)
  have e2 : r.arr[k + 1]? = some r.arr[k + 1] := List.getElem?_eq_getElem (by omega)
  unfold cmpSwapN
  rw [e1, e2]
  split
  · split <;> rfl
  · simp_all

theorem sort_sorted_of_lt (a : List Int) (t : Int) (sched : Nat → List Nat)
    (h : a.length < 2 ^ 31) :
    ∃ r, parallelOddEvenSort a t sched = some r ∧ r.arr = roundPass^[a.length] a ∧
      NonDecreasing r.arr ∧ r.arr.Perm a ∧ r.rounds = a.length := by
  obtain ⟨r, h1, h2, h3⟩ := parallelOddEvenSort_arr a t sched
  rw [roundsOf_of_lt a.length h] at h2 h3
  rw [List.take_length, List.drop_length, List.append_nil] at h2
  refine ⟨r, h1, h2, ?_, ?_, h3⟩
  · rw [h2]; exact roundPass_sorts a a.length (by omega)
  · rw [h2]; exact iterate_roundPass_perm _ _

theorem length_unsortedOfSize (k : Nat) : (unsortedOfSize k).length = k + 2 := by
  simp [unsortedOfSize]

theorem unsortedOfSize_not_nonDecreasing (k : Nat) (l : List Int) (e : l = unsortedOfSize k) :
    ¬ (∀ i, (hi : i + 1 < l.length) → l[i] ≤ l[i + 1]) := by
  subst e
  intro hs
  have := hs 0 (by simp [unsortedOfSize])
  simp [unsortedOfSize] at this

/-- With `2^31 ≤ size < 2^32` the `int` holding the size is negative and the outer loop
makes no iteration. -/
theorem sort_of_negative (a : List Int) (t : Int) (sched : Nat → List Nat)
    (h : roundsOf a.length = 0) :
    parallelOddEvenSort a t sched = some ⟨a, 0, 0, 0⟩ := by
  rw [parallelOddEvenSort_eq, h]
  rfl

/-! ## Claims about `parallelOddEvenSort` -/

/-- C1 (amended): for every array with fewer than `2^31` entries, every thread count
and every schedule, the sort returns, after `n` outer iterations, an array in
non-decreasing order: `result[i] ≤ result[i+1]` whenever `i + 1 < n`. -/
theorem parallelOddEvenSort_sorted (a : List Int) (t : Int) (sched : Nat → List Nat)
    (h : a.length < 2 ^ 31) :
    ∃ r, parallelOddEvenSort a t sched = some r ∧ r.rounds = a.length ∧
      r.arr.length = a.length ∧
      (∀ i, (hi : i + 1 < r.arr.length) → r.arr[i] ≤ r.arr[i + 1]) ∧
      r.arr.Sorted (· ≤ ·) := by
  obtain ⟨r, h1, _, h3, h4, h5⟩ := sort_sorted_of_lt a t sched h
  exact ⟨r, h1, h5, h4.length_eq, h3, sorted_of_nonDecreasing _ h3⟩

/-- Witness of C1 on a reverse-sorted array. -/
theorem parallelOddEvenSort_sorted_witness :
    ([5, 4, 3, 2, 1] : List Int).length < 2 ^ 31 ∧
    ∃ r, parallelOddEvenSort [5, 4, 3, 2, 1] 4 rrSched = some r ∧
      r.rounds = ([5, 4, 3, 2, 1] : List Int).length ∧
      r.arr.length = ([5, 4, 3, 2, 1] : List Int).length ∧
      (∀ i, (hi : i + 1 < r.arr.length) → r.arr[i] ≤ r.arr[i + 1]) ∧
      r.arr.Sorted (· ≤ ·) :=
  ⟨by decide, parallelOddEvenSort_sorted [5, 4, 3, 2, 1] 4 rrSched (by decide)⟩

/-- Counterexample to C1 as stated: on the array `1, 0, 0, ..., 0` of `2^31 + 2` entries
`int n` is negative, the outer loop makes no iteration and the array is left out of
order. -/
theorem parallelOddEvenSort_sorted_counterexample :
    ∃ r, parallelOddEvenSort (unsortedOfSize (2 ^ 31)) 4 rrSched = some r ∧ r.rounds = 0 ∧
      ¬ (∀ i, (hi : i + 1 < r.arr.length) → r.arr[i] ≤ r.arr[i + 1]) := by
  have h0 : roundsOf (unsortedOfSize (2 ^ 31)).length = 0 := by
    rw [length_unsortedOfSize]; decide
  exact ⟨_, sort_of_negative _ 4 rrSched h0, rfl,
    unsortedOfSize_not_nonDecreasing (2 ^ 31) _ rfl⟩

/-- C2: for every array, thread count and schedule, the sort returns a permutation of
its input: same length and every value occurs as often as before. -/
theorem parallelOddEvenSort_perm (a : List Int) (t : Int) (sched : Nat → List Nat) :
    ∃ r, parallelOddEvenSort a t sched = some r ∧ r.arr.Perm a ∧
      r.arr.length = a.length ∧ ∀ x, r.arr.count x = a.count x := by
  obtain ⟨r, h1, h2, _⟩ := parallelOddEvenSort_arr a t sched
  have hp : r.arr.Perm a := by
    rw [h2]
    have := (iterate_roundPass_perm (roundsOf a.length) (a.take (roundsOf a.length))).append_right
      (a.drop (roundsOf a.length))
    rwa [List.take_append_drop] at this
  exact ⟨r, h1, hp, hp.length_eq, fun x => hp.count_eq x⟩

/-- C3 (amended): for every array with fewer than `2^31` entries the sort leaves the array
produced by a reference sort into non-decreasing order (insertion sort, and likewise
merge sort); `[3,1,2]` becomes `[1,2,3]`, `[5,4,3,2,1]` becomes `[1,2,3,4,5]` and
`[2,2,1,1]` becomes `[1,1,2,2]`, for every thread count and schedule. -/
theorem parallelOddEvenSort_reference :
    (∀ (a : List Int) (t : Int) (sched : Nat → List Nat), a.length < 2 ^ 31 →
      (parallelOddEvenSort a t sched).map Run.arr = some (a.insertionSort (· ≤ ·)) ∧
      (parallelOddEvenSort a t sched).map Run.arr = some a.mergeSort) ∧
    (∀ (t : Int) (sched : Nat → List Nat),
      (parallelOddEvenSort [3, 1, 2] t sched).map Run.arr = some [1, 2, 3]) ∧
    (∀ (t : Int) (sched : Nat → List Nat),
      (parallelOddEvenSort [5, 4, 3, 2, 1] t sched).map Run.arr = some [1, 2, 3, 4, 5]) ∧
    (∀ (t : Int) (sched : Nat → List Nat),
      (parallelOddEvenSort [2, 2, 1, 1] t sched).map Run.arr = some [1, 1, 2, 2]) := by
  have key : ∀ (a : List Int) (t : Int) (sched : Nat → List Nat), a.length < 2 ^ 31 →
      (parallelOddEvenSort a t sched).map Run.arr = some (a.insertionSort (· ≤ ·)) := by
    intro a t sched h
    obtain ⟨r, h1, _, h3, h4, _⟩ := sort_sorted_of_lt a t sched h
    have e : r.arr = a.insertionSort (· ≤ ·) :=
      List.eq_of_perm_of_sorted (h4.trans (List.perm_insertionSort _ a).symm)
        (sorted_of_nonDecreasing _ h3) (List.sorted_insertionSort _ a)
    rw [h1, Option.map_some', e]
  have key2 : ∀ (a : List Int) (t : Int) (sched : Nat → List Nat), a.length < 2 ^ 31 →
      (parallelOddEvenSort a t sched).map Run.arr = some a.mergeSort := by
    intro a t sched h
    obtain ⟨r, h1, _, h3, h4, _⟩ := sort_sorted_of_lt a t sched h
    have e : r.arr = a.mergeSort :=
      List.eq_of_perm_of_sorted (h4.trans (List.mergeSort_perm a _).symm)
        (sorted_of_nonDecreasing _ h3) (List.sorted_mergeSort' a)
    rw [h1, Option.map_some', e]
  refine ⟨fun a t sched h => ⟨key a t sched h, key2 a t sched h⟩, ?_, ?_, ?_⟩
  · intro t sched; rw [key _ t sched (by decide)]; decide
  · intro t sched; rw [key _ t sched (by decide)]; decide
  · intro t sched; rw [key _ t sched (by decide)]; decide

/-- Witness of C3 on `[3,1,2]`. -/
theorem parallelOddEvenSort_reference_witness :
    ([3, 1, 2] : List Int).length < 2 ^ 31 ∧
    (parallelOddEvenSort [3, 1, 2] 16 rrSched).map Run.arr =
      some (([3, 1, 2] : List Int).insertionSort (· ≤ ·)) ∧
    (parallelOddEvenSort [3, 1, 2] 16 rrSched).map Run.arr =
      some ([3, 1, 2] : List Int).mergeSort :=
  ⟨by decide, parallelOddEvenSort_reference.1 [3, 1, 2] 16 rrSched (by decide)⟩

/-- Counterexample to C3 as stated: the array `1, 0, 0, ..., 0` of `2^31 + 3` entries is
left as it is, which is not what a reference sort produces. -/
theorem parallelOddEvenSort_reference_counterexample :
    (parallelOddEvenSort (unsortedOfSize (2 ^ 31 + 1)) 1 seqSched).map Run.arr ≠
      some ((unsortedOfSize (2 ^ 31 + 1)).insertionSort (· ≤ ·)) := by
  have h0 : roundsOf (unsortedOfSize (2 ^ 31 + 1)).length = 0 := by
    rw [length_unsortedOfSize]; decide
  rw [sort_of_negative _ 1 seqSched h0, Option.map_some']
  intro he
  have hs : (unsortedOfSize (2 ^ 31 + 1)).Sorted (· ≤ ·) := by
    have h1 := List.sorted_insertionSort (· ≤ ·) (unsortedOfSize (2 ^ 31 + 1))
    rwa [← Option.some.inj he] at h1
  exact unsortedOfSize_not_nonDecreasing (2 ^ 31 + 1) _ rfl
    (nonDecreasing_of_sorted _ hs)

/-- C4: thread-count invariance.  For every array, any two thread counts `t1 ≥ 1` and
`t2 ≥ 1` and any two schedules, both sorts return, and they return the same array after
the same number of outer iterations, loop bodies and swaps. -/
theorem parallelOddEvenSort_thread_invariant (a : List Int) (t1 t2 : Int)
    (s1 s2 : Nat → List Nat) (_h1 : 1 ≤ t1) (_h2 : 1 ≤ t2) :
    ∃ r, parallelOddEvenSort a t1 s1 = some r ∧ parallelOddEvenSort a t2 s2 = some r :=
  ⟨_, parallelOddEvenSort_eq a t1 s1, parallelOddEvenSort_eq a t2 s2⟩

/-- Witness of C4: one thread run sequentially against sixteen threads interleaved. -/
theorem parallelOddEvenSort_thread_invariant_witness :
    (1 : Int) ≤ 1 ∧ (1 : Int) ≤ 16 ∧
    ∃ r, parallelOddEvenSort [5, 4, 3, 2, 1] 1 seqSched = some r ∧
      parallelOddEvenSort [5, 4, 3, 2, 1] 16 rrSched = some r :=
  ⟨by decide, by decide,
    parallelOddEvenSort_thread_invariant [5, 4, 3, 2, 1] 1 16 seqSched rrSched
      (by decide) (by decide)⟩

theorem sort_of_sorted_prefix (a : List Int) (t : Int) (sched : Nat → List Nat)
    (h : (a.take (roundsOf a.length)).Sorted (· ≤ ·)) :
    ∃ r, parallelOddEvenSort a t sched = some r ∧ r.arr = a ∧ r.swaps = 0 := by
  refine ⟨_, parallelOddEvenSort_eq a t sched, ?_, ?_⟩
  · exact (iterate_seqRound_of_sorted _ _ ⟨a, 0, 0, 0⟩ h).1
  · exact (iterate_seqRound_of_sorted _ _ ⟨a, 0, 0, 0⟩ h).2

/-- C5: idempotence.  If the array is already in non-decreasing order, the sort returns
it unchanged and no phase performs a swap; and sorting the array left by a sort leaves
it unchanged (for every thread count and schedule of either sort). -/
theorem parallelOddEvenSort_idempotent (a : List Int) (t : Int) (sched : Nat → List Nat) :
    ((∀ i, (hi : i + 1 < a.length) → a[i] ≤ a[i + 1]) →
      ∃ r, parallelOddEvenSort a t sched = some r ∧ r.arr = a ∧ r.swaps = 0) ∧
    (∀ r, parallelOddEvenSort a t sched = some r →
      ∀ (t2 : Int) (sched2 : Nat → List Nat),
        ∃ r2, parallelOddEvenSort r.arr t2 sched2 = some r2 ∧ r2.arr = r.arr ∧
          r2.swaps = 0) := by
  constructor
  · intro h
    have hs : a.Sorted (· ≤ ·) := sorted_of_nonDecreasing a h
    exact sort_of_sorted_prefix a t sched (hs.sublist (List.take_sublist _ _))
  · intro r hr t2 sched2
    obtain ⟨r1, h1, h2, _⟩ := parallelOddEvenSort_arr a t sched
    rw [hr] at h1
    cases h1
    apply sort_of_sorted_prefix
    have hm := roundsOf_le a.length
    have hl : r.arr.length = a.length := by
      rw [h2, List.length_append, length_iterate_roundPass, List.length_take,
        List.length_drop]
      omega
    have hl2 : (roundPass^[roundsOf a.length] (a.take (roundsOf a.length))).length =
        roundsOf a.length := by
      rw [length_iterate_roundPass, List.length_take]; omega
    rw [hl, h2, List.take_left' hl2]
    apply sorted_of_nonDecreasing
    apply roundPass_sorts
    rw [List.length_take]
    omega

/-- Witness of C5 on the sorted array `[1,2,2,3]`. -/
theorem parallelOddEvenSort_idempotent_witness :
    (∀ i, (hi : i + 1 < ([1, 2, 2, 3] : List Int).length) →
      ([1, 2, 2, 3] : List Int)[i] ≤ ([1, 2, 2, 3] : List Int)[i + 1]) ∧
    ∃ r, parallelOddEvenSort [1, 2, 2, 3] 4 rrSched = some r ∧ r.arr = [1, 2, 2, 3] ∧
      r.swaps = 0 :=
  have h : ∀ i, (hi : i + 1 < ([1, 2, 2, 3] : List Int).length) →
      ([1, 2, 2, 3] : List Int)[i] ≤ ([1, 2, 2, 3] : List Int)[i + 1] :=
    nonDecreasing_of_sorted _ (by decide)
  ⟨h, (parallelOddEvenSort_idempotent [1, 2, 2, 3] 4 rrSched).1 h⟩

/-- C6: on an array of length 0 or 1 the sort returns the array unchanged without
executing any loop body: with `n = 0` the outer loop makes no iteration, with `n = 1` it
makes one iteration in which both inner loops have an empty iteration space. -/
theorem parallelOddEvenSort_short (a : List Int) (t : Int) (sched : Nat → List Nat)
    (h : a.length ≤ 1) :
    parallelOddEvenSort a t sched =
      some { arr := a, rounds := a.length, cmps := 0, swaps := 0 } ∧
    ompIters 1 (toInt32 a.length - 1) = [] ∧ ompIters 0 (toInt32 a.length - 1) = [] := by
  have hr : roundsOf a.length = a.length := roundsOf_of_lt _ (by omega)
  have hn : toInt32 a.length = a.length := toInt32_of_lt _ (by omega)
  refine ⟨?_, ?_, ?_⟩
  · rw [parallelOddEvenSort_eq, hr]
    rcases a with _ | ⟨x, _ | ⟨y, rest⟩⟩
    · rfl
    · simp [seqRound, oddPass, evenPass, oddSwaps, evenSwaps]
    · simp at h
  · rw [hn, ompIters_unfold, if_neg (by omega)]
  · rw [hn, ompIters_unfold, if_neg (by omega)]

/-- Witness of C6 on `[5]`. -/
theorem parallelOddEvenSort_short_witness :
    ([5] : List Int).length ≤ 1 ∧
    parallelOddEvenSort [5] 8 rrSched =
      some { arr := [5], rounds := ([5] : List Int).length, cmps := 0, swaps := 0 } ∧
    ompIters 1 (toInt32 ([5] : List Int).length - 1) = [] ∧
    ompIters 0 (toInt32 ([5] : List Int).length - 1) = [] :=
  ⟨by decide, parallelOddEvenSort_short [5] 8 rrSched (by decide)⟩

/-- C9: index safety.  For every array (of any length), thread count and schedule the
sort returns, that is, no checked access fails; every value `j` of either inner loop
satisfies `0 ≤ j` and `j + 1 ≤ n - 1` with `n ≤ size`, and the loop body at such a `j`
succeeds on every array of that size. -/
theorem parallelOddEvenSort_in_range (a : List Int) (t : Int) (sched : Nat → List Nat) :
    (parallelOddEvenSort a t sched).isSome ∧
    ∀ j, j ∈ ompIters 1 (toInt32 a.length - 1) ∨ j ∈ ompIters 0 (toInt32 a.length - 1) →
      0 ≤ j ∧ j + 1 ≤ toInt32 a.length - 1 ∧ toInt32 a.length ≤ a.length ∧
        ∀ r : Run, r.arr.length = a.length →
          (vecGet r.arr j).isSome ∧ (vecGet r.arr (j + 1)).isSome ∧ (cmpSwap j r).isSome := by
  constructor
  · rw [parallelOddEvenSort_eq]; rfl
  · intro j hj
    have hle := toInt32_le a.length
    generalize toInt32 a.length = n at hj hle
    have hb : 0 ≤ j ∧ j < n - 1 := by
      rcases hj with hj | hj
      · have := mem_ompIters _ _ 1 j (le_refl _) hj
        omega
      · have := mem_ompIters _ _ 0 j (le_refl _) hj
        omega
    refine ⟨hb.1, by omega, hle, ?_⟩
    intro r hr
    obtain ⟨k, rfl⟩ := Int.eq_ofNat_of_zero_le hb.1
    have hk : k + 1 < r.arr.length := by omega
    have e1 : r.arr[k]? = some r.arr[k] := List.getElem?_eq_getElem (by omega)
    have e2 : r.arr[k + 1]? = some r.arr[k + 1] := List.getElem?_eq_getElem hk
    have c1 : ((k : Int) + 1).toNat = k + 1 := by omega
    have c2 : (0 : Int) ≤ (k : Int) + 1 := by omega
    refine ⟨by simp [vecGet, e1], by simp [vecGet, c1, c2, e2], ?_⟩
    rw [cmpSwap_natCast]
    exact cmpSwapN_isSome k r hk

/-- Witness of C9: the odd-phase iteration `j = 1` on an array of length 3. -/
theorem parallelOddEvenSort_in_range_witness :
    ((1 : Int) ∈ ompIters 1 (toInt32 ([3, 1, 2] : List Int).length - 1) ∨
      (1 : Int) ∈ ompIters 0 (toInt32 ([3, 1, 2] : List Int).length - 1)) ∧
    ((0 : Int) ≤ 1 ∧ (1 : Int) + 1 ≤ toInt32 ([3, 1, 2] : List Int).length - 1 ∧
      toInt32 ([3, 1, 2] : List Int).length ≤ ([3, 1, 2] : List Int).length ∧
      ∀ r : Run, r.arr.length = ([3, 1, 2] : List Int).length →
        (vecGet r.arr 1).isSome ∧ (vecGet r.arr (1 + 1)).isSome ∧ (cmpSwap 1 r).isSome) :=
  ⟨Or.inl (by decide),
    (parallelOddEvenSort_in_range [3, 1, 2] 4 rrSched).2 1 (Or.inl (by decide))⟩

/-! ## Claims about `isSorted` -/

theorem sizeMinusOne_of_pos (n : Nat) (h1 : 1 ≤ n) (h2 : n < 2 ^ 64) :
    sizeMinusOne n = n - 1 := by
  unfold sizeMinusOne
  omega

/-- The loop of `isSorted` started at `i` with `k` iterations left, when the bound is
`size - 1`: it runs to the end over a non-decreasing tail, or stops at the first
inversion. -/
theorem isSortedLoop_spec (a : List Int) : ∀ (k i : Nat), i + k + 1 = a.length →
    (isSortedLoop a i k = some (true, i + k) ∧
      ∀ j, (h : j + 1 < a.length) → i ≤ j → a[j] ≤ a[j + 1]) ∨
    (∃ j, ∃ h : j + 1 < a.length, i ≤ j ∧ a[j + 1] < a[j] ∧
      (∀ j2, (h2 : j2 + 1 < a.length) → i ≤ j2 → j2 < j → a[j2] ≤ a[j2 + 1]) ∧
      isSortedLoop a i k = some (false, j)) := by
  intro k
  induction k with
  | zero =>
    intro i hi
    left
    refine ⟨rfl, ?_⟩
    intro j h hij
    omega
  | succ k ih =>
    intro i hi
    have e1 : a[i]? = some a[i] := List.getElem?_eq_getElem (by omega)
    have e2 : a[i + 1]? = some a[i + 1] := List.getElem?_eq_getElem (by omega)
    by_cases hgt : a[i] > a[i + 1]
    · right
      refine ⟨i, by omega, le_refl _, hgt, ?_, ?_⟩
      · intro j2 h2 h3 h4; omega
      · simp [isSortedLoop, e1, e2, hgt]
    · have hstep : isSortedLoop a i (k + 1) = isSortedLoop a (i + 1) k := by
        simp [isSortedLoop, e1, e2, hgt]
      rcases ih (i + 1) (by omega) with ⟨h1, h2⟩ | ⟨j, hj, hij, hlt, hmin, hres⟩
      · left
        refine ⟨by rw [hstep, h1]; congr 2; omega, ?_⟩
        intro j h hij
        by_cases e : j = i
        · subst e; omega
        · exact h2 j h (by omega)
      · right
        refine ⟨j, hj, by omega, hlt, ?_, by rw [hstep, hres]⟩
        intro j2 h2 h3 h4
        by_cases e : j2 = i
        · subst e; omega
        · exact hmin j2 h2 (by omega) h4

/-- C7 at the inputs of length 0 and 1: on the empty array the first loop iteration reads
`arr[0]` out of range, so `isSorted` does not return `true`; on a one-element array it
returns `true`. -/
theorem isSorted_short : isSorted [] = none ∧ ∀ x : Int, isSorted [x] = some true := by
  constructor
  · decide
  · intro x
    have hb : sizeMinusOne 1 = 0 := by decide
    unfold isSorted isSortedScan
    rw [List.length_singleton, hb]
    rfl

/-- C8: for an array of length `n ≥ 2` (a size that fits `size_t`), `isSorted` returns
without any out-of-range read; it returns `false` exactly when some adjacent pair is
inverted, leaving the loop at the first such index, and `true` exactly when the array is
in non-decreasing order. -/
theorem isSorted_spec (a : List Int) (h2 : 2 ≤ a.length) (hsz : a.length < 2 ^ 64) :
    (isSorted a).isSome ∧
    (isSorted a = some false ↔ ∃ i, ∃ h : i + 1 < a.length, a[i] > a[i + 1]) ∧
    (isSorted a = some true ↔ ∀ i, (h : i + 1 < a.length) → a[i] ≤ a[i + 1]) ∧
    (∀ i, isSortedScan a = some (false, i) ↔
      ∃ h : i + 1 < a.length, a[i] > a[i + 1] ∧
        ∀ j, (hj : j + 1 < a.length) → j < i → a[j] ≤ a[j + 1]) := by
  have hb : sizeMinusOne a.length = a.length - 1 := sizeMinusOne_of_pos _ (by omega) hsz
  have hspec := isSortedLoop_spec a (a.length - 1) 0 (by omega)
  unfold isSorted isSortedScan
  rw [hb]
  rcases hspec with ⟨h1, hall⟩ | ⟨j, hj, _, hlt, hmin, hres⟩
  · rw [h1]
    refine ⟨rfl, ?_, ?_, ?_⟩
    · constructor
      · intro h; simp at h
      · rintro ⟨i, hi, hgt⟩
        have := hall i hi (Nat.zero_le _)
        omega
    · constructor
      · intro _ i hi; exact hall i hi (Nat.zero_le _)
      · intro _; rfl
    · intro i
      constructor
      · intro h; simp at h
      · rintro ⟨hi, hgt, _⟩
        have := hall i hi (Nat.zero_le _)
        omega
  · rw [hres]
    refine ⟨rfl, ?_, ?_, ?_⟩
    · constructor
      · intro _; exact ⟨j, hj, hlt⟩
      · intro _; rfl
    · constructor
      · intro h; simp at h
      · intro hall
        have := hall j hj
        omega
    · intro i
      constructor
      · intro h
        have e : j = i := by simpa using h
        subst e
        exact ⟨hj, hlt, fun j2 h2 h3 => hmin j2 h2 (Nat.zero_le _) h3⟩
      · rintro ⟨hi, hgt, hbefore⟩
        have e : j = i := by
          rcases Nat.lt_trichotomy j i with h | h | h
          · have := hbefore j hj h; omega
          · exact h
          · have := hmin i hi (Nat.zero_le _) h; omega
        rw [e]

/-- Witness of C8 on `[1,2,2,1,0]`, whose first inversion is at index 2. -/
theorem isSorted_spec_witness :
    2 ≤ ([1, 2, 2, 1, 0] : List Int).length ∧ ([1, 2, 2, 1, 0] : List Int).length < 2 ^ 64 ∧
    isSorted [1, 2, 2, 1, 0] = some false ∧
    isSortedScan [1, 2, 2, 1, 0] = some (false, 2) :=
  have h := isSorted_spec [1, 2, 2, 1, 0] (by decide) (by decide)
  ⟨by decide, by decide, h.2.1.2 ⟨2, by decide, by decide⟩,
    (h.2.2.2 2).2 ⟨by decide, by decide, fun j _ hlt =>
      match j, hlt with
      | 0, _ => by show (1 : Int) ≤ 2; decide
      | 1, _ => by show (2 : Int) ≤ 2; decide⟩⟩

/-! ## Claims about `main` -/

/-- C10: with `argc < 3`, `main` returns 1 after the usage message only, without
generating data or sorting; otherwise (for a size `N ≥ 0`, so that the data exists)
`parallelOddEvenSort` is run on the generated data and returns an array on which `main`
returns 0 exactly when `isSorted` returns `true` and 1 exactly when `isSorted` returns
`false`. -/
theorem main_exit_code (draw : Nat → Int) (sched : Nat → List Nat) (argc N threads : Int) :
    (argc < 3 →
      main draw sched argc N threads = some { exitCode := 1, steps := [Step.usage] }) ∧
    (3 ≤ argc → 0 ≤ N →
      ∃ r, parallelOddEvenSort (generateData draw N.toNat) threads sched = some r ∧
        ((main draw sched argc N threads).map MainResult.exitCode = some 0 ↔
          isSorted r.arr = some true) ∧
        ((main draw sched argc N threads).map MainResult.exitCode = some 1 ↔
          isSorted r.arr = some false)) := by
  constructor
  · intro h
    simp [main, h]
  · intro h3 h0
    have hr := parallelOddEvenSort_eq (generateData draw N.toNat) threads sched
    refine ⟨_, hr, ?_⟩
    have c1 : ¬ argc < 3 := by omega
    have c2 : ¬ N < 0 := by omega
    unfold main
    rw [if_neg c1, if_neg c2, hr]
    dsimp only
    cases isSorted _ with
    | none => decide
    | some b => cases b <;> decide

/-- Witness of C10: one argument missing, and a run on six generated values. -/
theorem main_exit_code_witness :
    ((2 : Int) < 3 ∧
      main sampleDraw rrSched 2 6 4 = some { exitCode := 1, steps := [Step.usage] }) ∧
    ((3 : Int) ≤ 3 ∧ (0 : Int) ≤ 6 ∧
      ∃ r, parallelOddEvenSort (generateData sampleDraw (6 : Int).toNat) 4 rrSched = some r ∧
        ((main sampleDraw rrSched 3 6 4).map MainResult.exitCode = some 0 ↔
          isSorted r.arr = some true) ∧
        ((main sampleDraw rrSched 3 6 4).map MainResult.exitCode = some 1 ↔
          isSorted r.arr = some false)) :=
  ⟨⟨by decide, (main_exit_code sampleDraw rrSched 2 6 4).1 (by decide)⟩,
    by decide, by decide,
    (main_exit_code sampleDraw rrSched 3 6 4).2 (by decide) (by decide)⟩

/-! ## Phases and outer iterations for any value of `n` -/

theorem ompIters_of_le (lb ub : Int) (h : ub ≤ lb) : ompIters lb ub = [] := by
  rw [ompIters_unfold, if_neg (by omega)]

theorem evenPhase_eq_int (n : Int) (team : Nat) (ht : 1 ≤ team) (ticks : List Nat) (r : Run)
    (hn : n ≤ r.arr.length) :
    evenPhase n team ticks r =
      some ⟨evenPass (r.arr.take n.toNat) ++ r.arr.drop n.toNat, r.rounds,
        r.cmps + n.toNat / 2, r.swaps + evenSwaps (r.arr.take n.toNat)⟩ := by
  by_cases h0 : 0 ≤ n
  · obtain ⟨m, rfl⟩ := Int.eq_ofNat_of_zero_le h0
    rw [evenPhase_eq m team ht ticks r (by omega)]
    simp
  · have e : n.toNat = 0 := by omega
    unfold evenPhase
    rw [ompParallelFor_eq team ht, ompIters_of_le _ _ (by omega), e]
    simp [runIters_nil, evenPass, evenSwaps]

theorem oddPhase_eq_int (n : Int) (team : Nat) (ht : 1 ≤ team) (ticks : List Nat) (r : Run)
    (hn : n ≤ r.arr.length) :
    oddPhase n team ticks r =
      some ⟨oddPass (r.arr.take n.toNat) ++ r.arr.drop n.toNat, r.rounds,
        r.cmps + (n.toNat - 1) / 2, r.swaps + oddSwaps (r.arr.take n.toNat)⟩ := by
  by_cases h0 : 0 ≤ n
  · obtain ⟨m, rfl⟩ := Int.eq_ofNat_of_zero_le h0
    rw [oddPhase_eq m team ht ticks r (by omega)]
    simp
  · have e : n.toNat = 0 := by omega
    unfold oddPhase
    rw [ompParallelFor_eq team ht, ompIters_of_le _ _ (by omega), e]
    simp [runIters_nil, oddPass, oddSwaps]

theorem outerBody_eq_int (n : Int) (team : Nat) (ht : 1 ≤ team) (sched : Nat → List Nat)
    (i : Nat) (r : Run) (hn : n ≤ r.arr.length) :
    outerBody n team sched i r = some (seqRound n.toNat r) := by
  by_cases h0 : 0 ≤ n
  · obtain ⟨m, rfl⟩ := Int.eq_ofNat_of_zero_le h0
    rw [outerBody_eq m team ht sched i r (by omega)]
    simp
  · have e : n.toNat = 0 := by omega
    unfold outerBody
    rw [oddPhase_eq_int n team ht _ r hn, Option.some_bind, evenPhase_eq_int n team ht]
    · rw [e]
      simp [seqRound, oddPass, evenPass, oddSwaps, evenSwaps]
    · simp only [List.length_append, length_oddPass, List.length_take, List.length_drop]
      omega

theorem sortAfter_eq (a : List Int) (t : Int) (sched : Nat → List Nat) (k : Nat) :
    sortAfter a t sched k =
      some ((seqRound (roundsOf a.length))^[min k (roundsOf a.length)] ⟨a, 0, 0, 0⟩) := by
  unfold sortAfter
  exact foldl_outerBody (toInt32 a.length) (roundsOf a.length)
    (fun h => by unfold roundsOf; omega) (teamSize t) (teamSize_pos t) sched ⟨a, 0, 0, 0⟩
    (roundsOf_le a.length) (min k (roundsOf a.length))
    (fun h => by
      have : 1 ≤ roundsOf a.length := le_trans h (Nat.min_le_right _ _)
      unfold roundsOf at this
      omega)

theorem ompIters_sorted (ub : Int) (m : Nat) :
    ∀ lb : Int, (ub - lb).toNat ≤ m → (ompIters lb ub).Sorted (· < ·) := by
  induction m with
  | zero =>
    intro lb h
    rw [ompIters_of_le lb ub (by omega)]
    exact List.sorted_nil
  | succ m ih =>
    intro lb h
    rw [ompIters_unfold]
    by_cases hlt : lb < ub
    · rw [if_pos hlt]
      refine List.sorted_cons.2 ⟨?_, ih (lb + 2) (by omega)⟩
      intro b hb
      have := mem_ompIters ub _ (lb + 2) b (le_refl _) hb
      omega
    · rw [if_neg hlt]
      exact List.sorted_nil

/-! ## Claims about the phases -/

/-- C11: within a phase (the loop from `lb = 1` or `lb = 0` up to `n - 1` in steps of 2)
two distinct pair-start indices `j`, `j2` touch disjoint index sets `{j, j+1}`,
`{j2, j2+1}`; the loop's own order is increasing in `j`; executing the compare-exchanges
in any permutation of that order gives the same state, and so does the parallel loop for
every team size and schedule. -/
theorem phase_order_independent (lb n : Int) :
    (∀ j ∈ ompIters lb (n - 1), ∀ j2 ∈ ompIters lb (n - 1), j ≠ j2 →
      j ≠ j2 + 1 ∧ j + 1 ≠ j2 ∧ j + 1 ≠ j2 + 1) ∧
    (ompIters lb (n - 1)).Sorted (· < ·) ∧
    (∀ js : List Int, js.Perm (ompIters lb (n - 1)) →
      ∀ r : Run, runIters cmpSwap js r = runIters cmpSwap (ompIters lb (n - 1)) r) ∧
    (∀ (team : Nat) (ticks : List Nat) (r : Run), 1 ≤ team →
      ompParallelFor team ticks lb (n - 1) cmpSwap r =
        runIters cmpSwap (ompIters lb (n - 1)) r) := by
  refine ⟨?_, ompIters_sorted _ _ lb (le_refl _), ?_, ?_⟩
  · intro j hj j2 hj2 hne
    have := ompIters_sep lb (n - 1) j hj j2 hj2
    omega
  · intro js hp r
    exact (runIters_perm _ _ hp.symm (ompIters_sep lb (n - 1)) r).symm
  · intro team ticks r ht
    exact ompParallelFor_eq team ht ticks lb (n - 1) r

/-- Witness of C11: the odd phase on five entries, run in the order `3, 1`. -/
theorem phase_order_independent_witness :
    ([3, 1] : List Int).Perm (ompIters 1 (5 - 1)) ∧
    runIters cmpSwap [3, 1] ⟨[5, 4, 3, 2, 1], 0, 0, 0⟩ =
      runIters cmpSwap (ompIters 1 (5 - 1)) ⟨[5, 4, 3, 2, 1], 0, 0, 0⟩ :=
  ⟨by decide, (phase_order_independent 1 5).2.2.1 [3, 1] (by decide) ⟨[5, 4, 3, 2, 1], 0, 0, 0⟩⟩

/-- C14: on the empty array the bound `arr.size() - 1`, computed modulo `2^64`, is
`2^64 - 1` and not `-1`; the loop condition `0 < arr.size() - 1` holds, and the first
iteration reads `arr[0]` and `arr[1]`, both out of range, so `isSorted` does not return;
with the bound 0 the loop would have been skipped and `true` returned. -/
theorem isSorted_empty_wraps :
    sizeMinusOne ([] : List Int).length = 2 ^ 64 - 1 ∧
    0 < sizeMinusOne ([] : List Int).length ∧
    ([] : List Int)[0]? = none ∧ ([] : List Int)[0 + 1]? = none ∧
    isSortedScan [] = none ∧ isSorted [] = none ∧
    isSortedLoop [] 0 0 = some (true, 0) := by
  refine ⟨by decide, by decide, rfl, rfl, by decide, by decide, rfl⟩

/-! ## Inversions -/

theorem inversions_cons (x : Int) (l : List Int) :
    inversions (x :: l) = l.countP (fun y => decide (x > y)) + inversions l := rfl

theorem inversions_append (l s : List Int) :
    inversions (l ++ s) =
      inversions l + (l.map (fun x => s.countP (fun y => decide (x > y)))).sum +
        inversions s := by
  induction l with
  | nil => simp [inversions]
  | cons x l ih =>
    rw [List.cons_append, inversions_cons, inversions_cons, ih, List.countP_append,
      List.map_cons, List.sum_cons]
    omega

theorem inversions_evenPass : ∀ l : List Int,
    inversions (evenPass l) + evenSwaps l = inversions l
  | [] => rfl
  | [_] => rfl
  | x :: y :: rest => by
    have ih := inversions_evenPass rest
    have hp := evenPass_perm rest
    have cx := hp.countP_eq (fun z => decide (x > z))
    have cy := hp.countP_eq (fun z => decide (y > z))
    rw [evenPass_cons_cons]
    by_cases h : x > y
    · have hyx : ¬ y > x := by omega
      simp only [h, if_true, evenSwaps, inversions_cons, List.countP_cons, decide_True,
        decide_eq_true_eq, hyx, if_false, cx, cy]
      omega
    · simp only [h, if_false, evenSwaps, inversions_cons, List.countP_cons,
        decide_eq_true_eq, cx, cy]
      omega

theorem inversions_oddPass (l : List Int) :
    inversions (oddPass l) + oddSwaps l = inversions l := by
  cases l with
  | nil => rfl
  | cons x rest =>
    have h := inversions_evenPass rest
    have cx := (evenPass_perm rest).countP_eq (fun z => decide (x > z))
    simp only [oddPass, oddSwaps, inversions_cons, cx]
    omega

theorem inversions_frame (l l2 s : List Int) (k : Nat) (hp : l2.Perm l)
    (h : inversions l2 + k = inversions l) :
    inversions (l2 ++ s) + k = inversions (l ++ s) := by
  rw [inversions_append, inversions_append,
    (hp.map (fun x => s.countP (fun y => decide (x > y)))).sum_eq]
  omega

theorem countP_eq_range (p : Int → Bool) (l : List Int) :
    l.countP p = (List.range l.length).countP (fun k => p (l.getD k 0)) := by
  induction l with
  | nil => simp
  | cons x l ih =>
    rw [List.length_cons, List.range_succ_eq_map, List.countP_cons, List.countP_cons,
      List.countP_map, ih]
    simp [Function.comp_def]

theorem inversionPairs_cons (x : Int) (l : List Int) :
    inversionPairs (x :: l) = l.countP (fun y => decide (x > y)) + inversionPairs l := by
  unfold inversionPairs
  rw [List.length_cons, List.range_succ_eq_map, List.map_cons, List.sum_cons, List.map_map,
    List.countP_cons, List.countP_map, countP_eq_range (fun y => decide (x > y)) l]
  simp [Function.comp_def, List.countP_cons, List.countP_map]

/-- The recursive count of inversions is the count over index pairs. -/
theorem inversions_eq_inversionPairs (l : List Int) : inversions l = inversionPairs l := by
  induction l with
  | nil => rfl
  | cons x l ih => rw [inversionPairs_cons, ← ih]; rfl

/-- C17: one odd phase and one even phase of the sort each return a permutation of the
array whose number of inversions (pairs `i < k` with `a[i] > a[k]`) is not larger, and
smaller by exactly the number of swaps the phase performed. -/
theorem phase_inversions (r : Run) (t : Int) (ticks : List Nat) :
    (∃ r1, oddPhase (toInt32 r.arr.length) (teamSize t) ticks r = some r1 ∧
      r1.arr.Perm r.arr ∧ r.swaps ≤ r1.swaps ∧ inversionPairs r1.arr ≤ inversionPairs r.arr ∧
      inversionPairs r1.arr + (r1.swaps - r.swaps) = inversionPairs r.arr) ∧
    (∃ r1, evenPhase (toInt32 r.arr.length) (teamSize t) ticks r = some r1 ∧
      r1.arr.Perm r.arr ∧ r.swaps ≤ r1.swaps ∧ inversionPairs r1.arr ≤ inversionPairs r.arr ∧
      inversionPairs r1.arr + (r1.swaps - r.swaps) = inversionPairs r.arr) := by
  simp only [← inversions_eq_inversionPairs]
  have hn := toInt32_le r.arr.length
  generalize toInt32 r.arr.length = n at hn
  have hsplit := List.take_append_drop n.toNat r.arr
  constructor
  · refine ⟨_, oddPhase_eq_int n (teamSize t) (teamSize_pos t) ticks r hn, ?_, ?_, ?_, ?_⟩
    · have := (oddPass_perm (r.arr.take n.toNat)).append_right (r.arr.drop n.toNat)
      rwa [hsplit] at this
    · exact Nat.le_add_right _ _
    · have := inversions_frame _ _ (r.arr.drop n.toNat) _ (oddPass_perm (r.arr.take n.toNat))
        (inversions_oddPass (r.arr.take n.toNat))
      rw [hsplit] at this
      show inversions (oddPass (r.arr.take n.toNat) ++ r.arr.drop n.toNat) ≤ _
      omega
    · have := inversions_frame _ _ (r.arr.drop n.toNat) _ (oddPass_perm (r.arr.take n.toNat))
        (inversions_oddPass (r.arr.take n.toNat))
      rw [hsplit] at this
      show inversions (oddPass (r.arr.take n.toNat) ++ r.arr.drop n.toNat) +
        (r.swaps + oddSwaps (r.arr.take n.toNat) - r.swaps) = _
      omega
  · refine ⟨_, evenPhase_eq_int n (teamSize t) (teamSize_pos t) ticks r hn, ?_, ?_, ?_, ?_⟩
    · have := (evenPass_perm (r.arr.take n.toNat)).append_right (r.arr.drop n.toNat)
      rwa [hsplit] at this
    · exact Nat.le_add_right _ _
    · have := inversions_frame _ _ (r.arr.drop n.toNat) _ (evenPass_perm (r.arr.take n.toNat))
        (inversions_evenPass (r.arr.take n.toNat))
      rw [hsplit] at this
      show inversions (evenPass (r.arr.take n.toNat) ++ r.arr.drop n.toNat) ≤ _
      omega
    · have := inversions_frame _ _ (r.arr.drop n.toNat) _ (evenPass_perm (r.arr.take n.toNat))
        (inversions_evenPass (r.arr.take n.toNat))
      rw [hsplit] at this
      show inversions (evenPass (r.arr.take n.toNat) ++ r.arr.drop n.toNat) +
        (r.swaps + evenSwaps (r.arr.take n.toNat) - r.swaps) = _
      omega

/-! ## How far a phase moves an entry -/

theorem movesAtMost_evenPass : ∀ l : List Int, MovesAtMost 1 l (evenPass l)
  | [] => fun i h => by simp at h
  | [x] => fun i h => by
    have hi : i = 0 := by simpa using h
    subst hi
    exact ⟨0, by simp [evenPass], rfl, by omega, by omega⟩
  | x :: y :: rest => fun i h => by
    have ih := movesAtMost_evenPass rest
    have hlen := length_evenPass rest
    match i, h with
    | 0, _ =>
      by_cases hxy : x > y
      · refine ⟨1, by rw [length_evenPass]; simp, ?_, by omega, by omega⟩
        simp [evenPass_cons_cons, hxy]
      · refine ⟨0, by rw [length_evenPass]; simp, ?_, by omega, by omega⟩
        simp [evenPass_cons_cons, hxy]
    | 1, _ =>
      by_cases hxy : x > y
      · refine ⟨0, by rw [length_evenPass]; simp, ?_, by omega, by omega⟩
        simp [evenPass_cons_cons, hxy]
      · refine ⟨1, by rw [length_evenPass]; simp, ?_, by omega, by omega⟩
        simp [evenPass_cons_cons, hxy]
    | i + 2, h =>
      have hi : i < rest.length := by simpa using h
      obtain ⟨k, hk, e, b1, b2⟩ := ih i hi
      refine ⟨k + 2, by rw [length_evenPass]; simp; omega, ?_, by omega, by omega⟩
      by_cases hxy : x > y
      · simp [evenPass_cons_cons, hxy, e]
      · simp [evenPass_cons_cons, hxy, e]

theorem movesAtMost_oddPass (l : List Int) : MovesAtMost 1 l (oddPass l) := by
  cases l with
  | nil => intro i h; simp at h
  | cons x rest =>
    intro i h
    match i, h with
    | 0, _ => exact ⟨0, by simp [oddPass], by simp [oddPass], by omega, by omega⟩
    | i + 1, h =>
      have hi : i < rest.length := by simpa using h
      obtain ⟨k, hk, e, b1, b2⟩ := movesAtMost_evenPass rest i hi
      exact ⟨k + 1, by simp [oddPass]; omega, by simp [oddPass, e], by omega, by omega⟩

theorem movesAtMost_trans (d1 d2 : Nat) (l l1 l2 : List Int) (h1 : MovesAtMost d1 l l1)
    (h2 : MovesAtMost d2 l1 l2) : MovesAtMost (d1 + d2) l l2 := by
  intro i hi
  obtain ⟨k, hk, e, b1, b2⟩ := h1 i hi
  obtain ⟨k2, hk2, e2, c1, c2⟩ := h2 k hk
  exact ⟨k2, hk2, by rw [e2, e], by omega, by omega⟩

theorem movesAtMost_append (d : Nat) (l l2 s : List Int) (h : MovesAtMost d l l2)
    (hlen : l2.length = l.length) : MovesAtMost d (l ++ s) (l2 ++ s) := by
  intro i hi
  by_cases hlt : i < l.length
  · obtain ⟨k, hk, e, b1, b2⟩ := h i hlt
    refine ⟨k, by rw [List.length_append]; omega, ?_, b1, b2⟩
    rw [List.getElem_append_left hk, List.getElem_append_left hlt, e]
  · rw [List.length_append] at hi
    refine ⟨i, by rw [List.length_append]; omega, ?_, by omega, by omega⟩
    rw [List.getElem_append_right (by omega), List.getElem_append_right (by omega)]
    simp only [hlen]

theorem movesAtMost_indexOf (d : Nat) (l l2 : List Int) (h : MovesAtMost d l l2)
    (hn2 : l2.Nodup) (x : Int) (hx : x ∈ l) :
    List.indexOf x l2 ≤ List.indexOf x l + d ∧ List.indexOf x l ≤ List.indexOf x l2 + d := by
  have hi : List.indexOf x l < l.length := List.indexOf_lt_length.2 hx
  obtain ⟨k, hk, e, b1, b2⟩ := h _ hi
  rw [List.getElem_indexOf hi] at e
  have hk2 : List.indexOf x l2 = k := by
    rw [← e]
    exact List.indexOf_getElem hn2 k hk
  omega

theorem movesAtMost_frame (d : Nat) (a l2 : List Int) (m : Nat)
    (h : MovesAtMost d (a.take m) l2) (hlen : l2.length = (a.take m).length) :
    MovesAtMost d a (l2 ++ a.drop m) := by
  have := movesAtMost_append d (a.take m) l2 (a.drop m) h hlen
  rwa [List.take_append_drop] at this

/-- C12 (amended): on an array of pairwise distinct integers, each phase moves every value
by at most one position, and one outer iteration (odd phase, then even phase) moves every
value by at most two positions. -/
theorem outerBody_displacement (r : Run) (t : Int) (sched : Nat → List Nat) (i : Nat)
    (ticks : List Nat) (hnd : r.arr.Nodup) :
    (∃ r1, oddPhase (toInt32 r.arr.length) (teamSize t) ticks r = some r1 ∧
      ∀ x ∈ r.arr, List.indexOf x r1.arr ≤ List.indexOf x r.arr + 1 ∧
        List.indexOf x r.arr ≤ List.indexOf x r1.arr + 1) ∧
    (∃ r1, evenPhase (toInt32 r.arr.length) (teamSize t) ticks r = some r1 ∧
      ∀ x ∈ r.arr, List.indexOf x r1.arr ≤ List.indexOf x r.arr + 1 ∧
        List.indexOf x r.arr ≤ List.indexOf x r1.arr + 1) ∧
    (∃ r2, outerBody (toInt32 r.arr.length) (teamSize t) sched i r = some r2 ∧
      ∀ x ∈ r.arr, List.indexOf x r2.arr ≤ List.indexOf x r.arr + 2 ∧
        List.indexOf x r.arr ≤ List.indexOf x r2.arr + 2) := by
  have hn := toInt32_le r.arr.length
  generalize toInt32 r.arr.length = n at hn
  have hsplit := List.take_append_drop n.toNat r.arr
  have hodd := movesAtMost_oddPass (r.arr.take n.toNat)
  have heven := movesAtMost_evenPass (r.arr.take n.toNat)
  have hround := movesAtMost_trans 1 1 _ _ _ hodd
    (movesAtMost_evenPass (oddPass (r.arr.take n.toNat)))
  refine ⟨⟨_, oddPhase_eq_int n (teamSize t) (teamSize_pos t) ticks r hn, ?_⟩,
    ⟨_, evenPhase_eq_int n (teamSize t) (teamSize_pos t) ticks r hn, ?_⟩,
    ⟨_, outerBody_eq_int n (teamSize t) (teamSize_pos t) sched i r hn, ?_⟩⟩
  · intro x hx
    have hp : (oddPass (r.arr.take n.toNat) ++ r.arr.drop n.toNat).Perm r.arr := by
      have := (oddPass_perm (r.arr.take n.toNat)).append_right (r.arr.drop n.toNat)
      rwa [hsplit] at this
    exact movesAtMost_indexOf 1 _ _
      (movesAtMost_frame 1 r.arr _ n.toNat hodd (length_oddPass _)) (hp.nodup_iff.2 hnd) x hx
  · intro x hx
    have hp : (evenPass (r.arr.take n.toNat) ++ r.arr.drop n.toNat).Perm r.arr := by
      have := (evenPass_perm (r.arr.take n.toNat)).append_right (r.arr.drop n.toNat)
      rwa [hsplit] at this
    exact movesAtMost_indexOf 1 _ _
      (movesAtMost_frame 1 r.arr _ n.toNat heven (length_evenPass _)) (hp.nodup_iff.2 hnd) x hx
  · intro x hx
    have hp : (roundPass (r.arr.take n.toNat) ++ r.arr.drop n.toNat).Perm r.arr := by
      have := (roundPass_perm (r.arr.take n.toNat)).append_right (r.arr.drop n.toNat)
      rwa [hsplit] at this
    exact movesAtMost_indexOf 2 _ _
      (movesAtMost_frame 2 r.arr _ n.toNat hround (length_roundPass _)) (hp.nodup_iff.2 hnd) x hx

/-- Witness of C12 on `[0, 9, 1, 2]`. -/
theorem outerBody_displacement_witness :
    ([0, 9, 1, 2] : List Int).Nodup ∧
    ∃ r2, outerBody (toInt32 ([0, 9, 1, 2] : List Int).length) (teamSize 4) rrSched 0
        ⟨[0, 9, 1, 2], 0, 0, 0⟩ = some r2 ∧
      ∀ x ∈ ([0, 9, 1, 2] : List Int),
        List.indexOf x r2.arr ≤ List.indexOf x ([0, 9, 1, 2] : List Int) + 2 ∧
        List.indexOf x ([0, 9, 1, 2] : List Int) ≤ List.indexOf x r2.arr + 2 :=
  ⟨by decide,
    (outerBody_displacement ⟨[0, 9, 1, 2], 0, 0, 0⟩ 4 rrSched 0 [] (by decide)).2.2⟩

/-- Counterexample to C12 as stated: in one outer iteration on `[0, 9, 1, 2]` the value 9
moves from index 1 to index 3 (one position in the odd phase, one more in the even
phase). -/
theorem outerBody_displacement_counterexample :
    ([0, 9, 1, 2] : List Int).Nodup ∧
    ∃ r2, outerBody (toInt32 ([0, 9, 1, 2] : List Int).length) (teamSize 1) seqSched 0
        ⟨[0, 9, 1, 2], 0, 0, 0⟩ = some r2 ∧
      List.indexOf 9 ([0, 9, 1, 2] : List Int) = 1 ∧ List.indexOf 9 r2.arr = 3 :=
  ⟨by decide, ⟨[0, 1, 2, 9], 1, 3, 2⟩, by decide, by decide, by decide⟩

/-! ## Iterations without a swap -/

theorem roundPass_fixed_sorted (l : List Int) (h : roundPass l = l) : l.Sorted (· ≤ ·) := by
  have hk : roundPass^[l.length] l = l := Function.iterate_fixed h _
  have := roundPass_sorts l l.length (by omega)
  rw [hk] at this
  exact sorted_of_nonDecreasing l this

theorem roundPass_swaps (l : List Int) :
    inversions (roundPass l) + (oddSwaps l + evenSwaps (oddPass l)) = inversions l := by
  have h1 := inversions_oddPass l
  have h2 := inversions_evenPass (oddPass l)
  unfold roundPass
  omega

theorem evenPass_of_no_swap : ∀ l : List Int, evenSwaps l = 0 → evenPass l = l
  | [], _ => rfl
  | [_], _ => rfl
  | x :: y :: rest, h => by
    simp only [evenSwaps] at h
    have hxy : ¬ x > y := by
      intro hgt
      rw [if_pos hgt] at h
      omega
    rw [if_neg hxy] at h
    rw [evenPass_cons_cons, if_neg hxy, evenPass_of_no_swap rest (by omega)]

theorem oddPass_of_no_swap (l : List Int) (h : oddSwaps l = 0) : oddPass l = l := by
  cases l with
  | nil => rfl
  | cons x rest =>
    simp only [oddSwaps] at h
    simp only [oddPass, evenPass_of_no_swap rest h]

theorem roundPass_fixed_iff (l : List Int) :
    roundPass l = l ↔ oddSwaps l + evenSwaps (oddPass l) = 0 := by
  constructor
  · intro h
    have := roundPass_swaps l
    rw [h] at this
    omega
  · intro h
    have ho : oddPass l = l := oddPass_of_no_swap l (by omega)
    unfold roundPass
    rw [evenPass_of_no_swap (oddPass l) (by omega), ho]

theorem seqRound_fixed_iff (m : Nat) (r : Run) :
    ((seqRound m r).arr = r.arr ↔ roundPass (r.arr.take m) = r.arr.take m) ∧
    ((seqRound m r).swaps = r.swaps ↔ roundPass (r.arr.take m) = r.arr.take m) := by
  constructor
  · rw [seqRound_arr]
    constructor
    · intro h
      have h2 : roundPass (r.arr.take m) ++ r.arr.drop m = r.arr.take m ++ r.arr.drop m := by
        rw [h, List.take_append_drop]
      exact List.append_cancel_right h2
    · intro h
      rw [h, List.take_append_drop]
  · rw [roundPass_fixed_iff]
    show r.swaps + oddSwaps (r.arr.take m) + evenSwaps (oddPass (r.arr.take m)) = r.swaps ↔ _
    omega

theorem seqRound_of_fixed (m : Nat) (r r2 : Run) (h : roundPass (r.arr.take m) = r.arr.take m)
    (e : r2.arr = r.arr) (k : Nat) :
    ((seqRound m)^[k] r2).arr = r.arr ∧ ((seqRound m)^[k] r2).swaps = r2.swaps := by
  have hs : (r2.arr.take m).Sorted (· ≤ ·) := by
    rw [e]; exact roundPass_fixed_sorted _ h
  have := iterate_seqRound_of_sorted m k r2 hs
  rw [e] at this
  exact this

theorem length_prefixSortedOfSize (k : Nat) : (prefixSortedOfSize k).length = k + 2 := by
  simp [prefixSortedOfSize]

theorem seqRound_prefixSortedOfSize (k : Nat) :
    seqRound 2 ⟨prefixSortedOfSize k, 0, 0, 0⟩ = ⟨prefixSortedOfSize k, 1, 1, 0⟩ := by
  simp [seqRound, prefixSortedOfSize, oddPass, evenPass, oddSwaps, evenSwaps]

theorem prefixSortedOfSize_not_nonDecreasing (k : Nat) (hk : 1 ≤ k) (l : List Int)
    (e : l = prefixSortedOfSize k) :
    ¬ (∀ i, (hi : i + 1 < l.length) → l[i] ≤ l[i + 1]) := by
  obtain ⟨k2, rfl⟩ : ∃ k2, k = k2 + 1 := ⟨k - 1, by omega⟩
  subst e
  intro hs
  have := hs 1 (by simp [prefixSortedOfSize])
  simp [prefixSortedOfSize, List.replicate_succ] at this

/-! ## Claims about the number of outer iterations -/

/-- C13 (amended): if one outer iteration performs no swap, that is, leaves the array
unchanged, then every later iteration leaves it unchanged too, and stopping the sort at
that point gives the same final array as running all `n` iterations; for an array with
fewer than `2^31` entries the array is then in non-decreasing order. -/
theorem early_termination_sound :
    (∀ (r : Run) (t : Int) (sched : Nat → List Nat) (i : Nat) (r1 : Run),
      outerBody (toInt32 r.arr.length) (teamSize t) sched i r = some r1 →
        (r1.swaps = r.swaps ↔ r1.arr = r.arr) ∧
        (r1.arr = r.arr →
          (r.arr.length < 2 ^ 31 →
            ∀ j, (hj : j + 1 < r.arr.length) → r.arr[j] ≤ r.arr[j + 1]) ∧
          ∀ (r2 : Run) (t2 : Int) (sched2 : Nat → List Nat) (i2 : Nat), r2.arr = r.arr →
            ∃ r3, outerBody (toInt32 r2.arr.length) (teamSize t2) sched2 i2 r2 = some r3 ∧
              r3.arr = r.arr ∧ r3.swaps = r2.swaps)) ∧
    (∀ (a : List Int) (t : Int) (sched : Nat → List Nat) (k : Nat) (rk r1 : Run),
      sortAfter a t sched k = some rk →
      outerBody (toInt32 a.length) (teamSize t) sched k rk = some r1 →
      r1.arr = rk.arr →
        ∃ rn, parallelOddEvenSort a t sched = some rn ∧ rn.arr = rk.arr ∧
          rn.swaps = rk.swaps) := by
  constructor
  · intro r t sched i r1 h1
    rw [outerBody_eq_int _ (teamSize t) (teamSize_pos t) sched i r (toInt32_le _)] at h1
    have h1 := Option.some.inj h1
    subst h1
    obtain ⟨f1, f2⟩ := seqRound_fixed_iff (roundsOf r.arr.length) r
    refine ⟨f2.trans f1.symm, fun harr => ⟨?_, ?_⟩⟩
    · intro hlt
      have hfix := f1.1 harr
      rw [roundsOf_of_lt _ hlt, List.take_length] at hfix
      exact nonDecreasing_of_sorted _ (roundPass_fixed_sorted _ hfix)
    · intro r2 t2 sched2 i2 e
      have hfix := f1.1 harr
      refine ⟨_, outerBody_eq_int _ (teamSize t2) (teamSize_pos t2) sched2 i2 r2
        (toInt32_le _), ?_⟩
      have := seqRound_of_fixed (roundsOf r.arr.length) r r2 hfix e 1
      rw [e]
      exact this
  · intro a t sched k rk r1 hk h1 harr
    rw [sortAfter_eq] at hk
    have hk := Option.some.inj hk
    have hlen : rk.arr.length = a.length := by
      rw [← hk, iterate_seqRound_length]
    rw [outerBody_eq_int _ (teamSize t) (teamSize_pos t) sched k rk
      (by rw [hlen]; exact toInt32_le _)] at h1
    have h1 := Option.some.inj h1
    subst h1
    have hfix := (seqRound_fixed_iff (roundsOf a.length) rk).1.1 harr
    refine ⟨_, parallelOddEvenSort_eq a t sched, ?_⟩
    obtain ⟨d, hd⟩ : ∃ d, roundsOf a.length = d + min k (roundsOf a.length) :=
      ⟨roundsOf a.length - min k (roundsOf a.length), by omega⟩
    have hiter : (seqRound (roundsOf a.length))^[roundsOf a.length] ⟨a, 0, 0, 0⟩ =
        (seqRound (roundsOf a.length))^[d] rk := by
      have := Function.iterate_add_apply (seqRound (roundsOf a.length)) d
        (min k (roundsOf a.length)) ⟨a, 0, 0, 0⟩
      rw [← hd, hk] at this
      exact this
    rw [hiter]
    exact seqRound_of_fixed (roundsOf a.length) rk rk hfix rfl _

/-- Witness of C13: on `[2, 1, 3]` the second outer iteration performs no swap. -/
theorem early_termination_sound_witness :
    sortAfter [2, 1, 3] 4 rrSched 1 = some ⟨[1, 2, 3], 1, 2, 1⟩ ∧
    outerBody (toInt32 ([2, 1, 3] : List Int).length) (teamSize 4) rrSched 1
      ⟨[1, 2, 3], 1, 2, 1⟩ = some ⟨[1, 2, 3], 2, 4, 1⟩ ∧
    (⟨[1, 2, 3], 2, 4, 1⟩ : Run).arr = (⟨[1, 2, 3], 1, 2, 1⟩ : Run).arr ∧
    ∃ rn, parallelOddEvenSort [2, 1, 3] 4 rrSched = some rn ∧
      rn.arr = (⟨[1, 2, 3], 1, 2, 1⟩ : Run).arr ∧ rn.swaps = (⟨[1, 2, 3], 1, 2, 1⟩ : Run).swaps :=
  ⟨by decide, by decide, rfl,
    early_termination_sound.2 [2, 1, 3] 4 rrSched 1 ⟨[1, 2, 3], 1, 2, 1⟩ ⟨[1, 2, 3], 2, 4, 1⟩
      (by decide) (by decide) rfl⟩

/-- Counterexample to C13 as stated: on the array `0, 1, 0, ..., 0` of `2^32 + 2` entries
`int n` is 2, an outer iteration compares only the first two entries and performs no
swap, and the array is not in non-decreasing order. -/
theorem early_termination_counterexample :
    ∃ r1, outerBody (toInt32 (prefixSortedOfSize (2 ^ 32)).length) (teamSize 1) seqSched 0
        ⟨prefixSortedOfSize (2 ^ 32), 0, 0, 0⟩ = some r1 ∧
      r1.swaps = 0 ∧ r1.arr = prefixSortedOfSize (2 ^ 32) ∧
      ¬ (∀ i, (hi : i + 1 < r1.arr.length) → r1.arr[i] ≤ r1.arr[i + 1]) := by
  have hn : toInt32 (prefixSortedOfSize (2 ^ 32)).length = ((2 : Nat) : Int) := by
    rw [length_prefixSortedOfSize]; decide
  have hle : 2 ≤ (prefixSortedOfSize (2 ^ 32)).length := by
    rw [length_prefixSortedOfSize]; exact Nat.le_add_left _ _
  rw [hn, outerBody_eq 2 (teamSize 1) (teamSize_pos 1) seqSched 0 _ hle,
    seqRound_prefixSortedOfSize]
  exact ⟨_, rfl, rfl, rfl,
    prefixSortedOfSize_not_nonDecreasing (2 ^ 32) (Nat.one_le_two_pow) _ rfl⟩

/-- After `k` rounds and one more odd pass, with `2 * k + 1 ≥ length`, the list is in
non-decreasing order. -/
theorem oddPass_roundPass_sorts (l : List Int) (k : Nat) (hk : l.length ≤ 2 * k + 1) :
    NonDecreasing (oddPass (roundPass^[k] l)) := by
  have hlen : (oddPass (roundPass^[k] l)).length = l.length := by
    rw [length_oddPass, length_iterate_roundPass]
  have hc : ∀ v, cnt v (oddPass (roundPass^[k] l)) l.length = cnt v l l.length := by
    intro v
    have := cnt_oddPass_length v (roundPass^[k] l)
    rw [length_iterate_roundPass] at this
    rw [this, cnt_iterate_length]
  apply nonDecreasing_of_cnt
  intro v i hi
  rw [hlen] at hi ⊢
  rw [hc]
  have h0 := inv_iterate v _ l (by omega) (inv_init v l) k
  have h1 := inv_oddPass v _ _ (by omega) h0 i (by rw [hlen]; exact hi)
  rw [hlen, hc] at h1
  have h2 := cnt_le v l l.length
  omega

theorem sortAfterPhases_eq (a : List Int) (t : Int) (sched : Nat → List Nat) (p : Nat) :
    sortAfterPhases a t sched p =
      some (if min p (2 * roundsOf a.length) % 2 = 1 then
          seqOddPhase (roundsOf a.length)
            ((seqRound (roundsOf a.length))^[min p (2 * roundsOf a.length) / 2] ⟨a, 0, 0, 0⟩)
        else (seqRound (roundsOf a.length))^[min p (2 * roundsOf a.length) / 2] ⟨a, 0, 0, 0⟩) := by
  have e : (toInt32 a.length).toNat = roundsOf a.length := rfl
  unfold sortAfterPhases
  simp only [e]
  have hq : min (min p (2 * roundsOf a.length) / 2) (roundsOf a.length) =
      min p (2 * roundsOf a.length) / 2 := by omega
  rw [sortAfter_eq, hq, Option.some_bind]
  split
  · rw [oddPhase_eq_int _ (teamSize t) (teamSize_pos t) _ _
      (by rw [iterate_seqRound_length]; exact toInt32_le _)]
    rfl
  · rfl

theorem seqOddPhase_of_sorted (m : Nat) (r : Run) (h : (r.arr.take m).Sorted (· ≤ ·)) :
    (seqOddPhase m r).arr = r.arr ∧ (seqOddPhase m r).swaps = r.swaps := by
  have h1 := oddPass_of_sorted _ h
  simp [seqOddPhase, h1.1, h1.2]

theorem seqRound_of_oddPhase_sorted (m : Nat) (r : Run)
    (h : (oddPass (r.arr.take m)).Sorted (· ≤ ·)) :
    (seqRound m r).arr = (seqOddPhase m r).arr ∧
      (seqRound m r).swaps = (seqOddPhase m r).swaps := by
  have h1 := evenPass_of_sorted _ h
  simp [seqRound, seqOddPhase, h1.1, h1.2]

/-- C16 (amended): for every array of length `n < 2^31`, the array is in non-decreasing
order after the first `n` phases of the sort (alternating, starting with the odd phase),
hence after its first `ceil(n/2)` outer iterations, and no later phase or iteration
performs a swap: at every later point of the sort, in particular through the remaining
`floor(n/2)` iterations up to its end, the array and the number of swaps are the same. -/
theorem half_rounds_suffice (a : List Int) (t : Int) (sched : Nat → List Nat)
    (h : a.length < 2 ^ 31) :
    ∃ r1, sortAfter a t sched ((a.length + 1) / 2) = some r1 ∧
      r1.rounds = (a.length + 1) / 2 ∧
      (∀ i, (hi : i + 1 < r1.arr.length) → r1.arr[i] ≤ r1.arr[i + 1]) ∧
      (∀ k, (a.length + 1) / 2 ≤ k →
        ∃ rk, sortAfter a t sched k = some rk ∧ rk.arr = r1.arr ∧ rk.swaps = r1.swaps) ∧
      (∃ rn, parallelOddEvenSort a t sched = some rn ∧ rn.arr = r1.arr ∧
        rn.swaps = r1.swaps ∧ rn.rounds = r1.rounds + a.length / 2) ∧
      (∃ rp, sortAfterPhases a t sched a.length = some rp ∧
        (∀ i, (hi : i + 1 < rp.arr.length) → rp.arr[i] ≤ rp.arr[i + 1]) ∧
        rp.arr = r1.arr ∧ rp.swaps = r1.swaps) ∧
      (∀ p, a.length ≤ p →
        ∃ rq, sortAfterPhases a t sched p = some rq ∧ rq.arr = r1.arr ∧
          rq.swaps = r1.swaps) := by
  have hm : roundsOf a.length = a.length := roundsOf_of_lt _ h
  have hj : min ((a.length + 1) / 2) a.length = (a.length + 1) / 2 := by omega
  have harr : ∀ j, ((seqRound a.length)^[j] ⟨a, 0, 0, 0⟩).arr = roundPass^[j] a := by
    intro j
    rw [iterate_seqRound_arr a.length j ⟨a, 0, 0, 0⟩ (le_refl _)]
    simp
  have hsorted : NonDecreasing ((seqRound a.length)^[(a.length + 1) / 2] ⟨a, 0, 0, 0⟩).arr := by
    rw [harr]
    exact roundPass_sorts a _ (by omega)
  have hlater : ∀ d, ((seqRound a.length)^[d + (a.length + 1) / 2] ⟨a, 0, 0, 0⟩).arr =
        ((seqRound a.length)^[(a.length + 1) / 2] ⟨a, 0, 0, 0⟩).arr ∧
      ((seqRound a.length)^[d + (a.length + 1) / 2] ⟨a, 0, 0, 0⟩).swaps =
        ((seqRound a.length)^[(a.length + 1) / 2] ⟨a, 0, 0, 0⟩).swaps := by
    intro d
    rw [Function.iterate_add_apply]
    apply iterate_seqRound_of_sorted
    exact (sorted_of_nonDecreasing _ hsorted).sublist (List.take_sublist _ _)
  have hphase : ∀ p, a.length ≤ p →
      ∃ rq, sortAfterPhases a t sched p = some rq ∧
        rq.arr = ((seqRound a.length)^[(a.length + 1) / 2] ⟨a, 0, 0, 0⟩).arr ∧
        rq.swaps = ((seqRound a.length)^[(a.length + 1) / 2] ⟨a, 0, 0, 0⟩).swaps := by
    intro p hp
    rw [sortAfterPhases_eq, hm]
    refine ⟨_, rfl, ?_⟩
    have hq1 : a.length ≤ min p (2 * a.length) := by omega
    have hq2 : min p (2 * a.length) ≤ 2 * a.length := by omega
    generalize min p (2 * a.length) = q at hq1 hq2
    by_cases hle : (a.length + 1) / 2 ≤ q / 2
    · obtain ⟨d, hd⟩ : ∃ d, q / 2 = d + (a.length + 1) / 2 :=
        ⟨q / 2 - (a.length + 1) / 2, by omega⟩
      have hl := hlater d
      rw [← hd] at hl
      split
      · have hs : (((seqRound a.length)^[q / 2] ⟨a, 0, 0, 0⟩ : Run).arr.take
            a.length).Sorted (· ≤ ·) := by
          rw [hl.1]
          exact (sorted_of_nonDecreasing _ hsorted).sublist (List.take_sublist _ _)
        have ho := seqOddPhase_of_sorted a.length _ hs
        rw [ho.1, ho.2]
        exact hl
      · exact hl
    · have hodd : q % 2 = 1 := by omega
      have hq : q / 2 = a.length / 2 := by omega
      have hsucc : (a.length + 1) / 2 = a.length / 2 + 1 := by omega
      rw [if_pos hodd, hq, hsucc, Function.iterate_succ_apply']
      have hs : (oddPass (((seqRound a.length)^[a.length / 2] ⟨a, 0, 0, 0⟩ : Run).arr.take
          a.length)).Sorted (· ≤ ·) := by
        rw [harr]
        have hl : (roundPass^[a.length / 2] a).length = a.length :=
          length_iterate_roundPass _ _
        rw [List.take_of_length_le (by omega)]
        exact sorted_of_nonDecreasing _ (oddPass_roundPass_sorts a _ (by omega))
      have := seqRound_of_oddPhase_sorted a.length _ hs
      exact ⟨this.1.symm, this.2.symm⟩
  refine ⟨_, by rw [sortAfter_eq, hm, hj], ?_, hsorted, ?_, ?_, ?_, hphase⟩
  · rw [iterate_seqRound_rounds]; simp
  · intro k hk
    refine ⟨_, by rw [sortAfter_eq, hm], ?_⟩
    obtain ⟨d, hd⟩ : ∃ d, min k a.length = d + (a.length + 1) / 2 :=
      ⟨min k a.length - (a.length + 1) / 2, by omega⟩
    rw [hd]
    exact hlater d
  · refine ⟨_, by rw [parallelOddEvenSort_eq, hm], ?_⟩
    obtain ⟨d, hd⟩ : ∃ d, a.length = d + (a.length + 1) / 2 :=
      ⟨a.length - (a.length + 1) / 2, by omega⟩
    have hl := hlater d
    rw [← hd] at hl
    refine ⟨hl.1, hl.2, ?_⟩
    rw [iterate_seqRound_rounds, iterate_seqRound_rounds]
    simp only [Nat.zero_add]
    omega
  · obtain ⟨rp, h1, h2, h3⟩ := hphase a.length (le_refl _)
    refine ⟨rp, h1, ?_, h2, h3⟩
    have : NonDecreasing rp.arr := by rw [h2]; exact hsorted
    exact this

/-- Witness of C16 on `[5, 4, 3, 2, 1]`: sorted after five phases, that is, after the odd
phase of the third of the five iterations. -/
theorem half_rounds_suffice_witness :
    ([5, 4, 3, 2, 1] : List Int).length < 2 ^ 31 ∧
    ∃ r1, sortAfter [5, 4, 3, 2, 1] 4 rrSched ((([5, 4, 3, 2, 1] : List Int).length + 1) / 2) =
        some r1 ∧
      r1.rounds = (([5, 4, 3, 2, 1] : List Int).length + 1) / 2 ∧
      (∀ i, (hi : i + 1 < r1.arr.length) → r1.arr[i] ≤ r1.arr[i + 1]) ∧
      (∀ k, (([5, 4, 3, 2, 1] : List Int).length + 1) / 2 ≤ k →
        ∃ rk, sortAfter [5, 4, 3, 2, 1] 4 rrSched k = some rk ∧ rk.arr = r1.arr ∧
          rk.swaps = r1.swaps) ∧
      (∃ rn, parallelOddEvenSort [5, 4, 3, 2, 1] 4 rrSched = some rn ∧ rn.arr = r1.arr ∧
        rn.swaps = r1.swaps ∧
        rn.rounds = r1.rounds + ([5, 4, 3, 2, 1] : List Int).length / 2) ∧
      (∃ rp, sortAfterPhases [5, 4, 3, 2, 1] 4 rrSched ([5, 4, 3, 2, 1] : List Int).length =
          some rp ∧
        (∀ i, (hi : i + 1 < rp.arr.length) → rp.arr[i] ≤ rp.arr[i + 1]) ∧
        rp.arr = r1.arr ∧ rp.swaps = r1.swaps) ∧
      (∀ p, ([5, 4, 3, 2, 1] : List Int).length ≤ p →
        ∃ rq, sortAfterPhases [5, 4, 3, 2, 1] 4 rrSched p = some rq ∧ rq.arr = r1.arr ∧
          rq.swaps = r1.swaps) :=
  ⟨by decide, half_rounds_suffice [5, 4, 3, 2, 1] 4 rrSched (by decide)⟩

/-- The bound of `n` phases is attained: `[5, 4, 3, 2, 1]` is not yet in order after four
phases (two outer iterations), and is in order after the fifth phase, which is the odd
phase of the third outer iteration with `rounds` still at 2. -/
theorem sortAfterPhases_reverse_five :
    sortAfterPhases [5, 4, 3, 2, 1] 1 seqSched 4 = some ⟨[1, 3, 2, 5, 4], 2, 8, 8⟩ ∧
    sortAfterPhases [5, 4, 3, 2, 1] 1 seqSched 5 = some ⟨[1, 2, 3, 4, 5], 2, 10, 10⟩ ∧
    sortAfter [5, 4, 3, 2, 1] 1 seqSched 3 = some ⟨[1, 2, 3, 4, 5], 3, 12, 10⟩ := by
  decide

/-- Counterexample to C16 as stated: on the array `1, 0, 0, ..., 0` of `2^31 + 4` entries
`int n` is negative, the outer loop makes no iteration at all, and the array is not in
non-decreasing order after its first `ceil(n/2)` iterations. -/
theorem half_rounds_suffice_counterexample :
    ∃ r1, sortAfter (unsortedOfSize (2 ^ 31 + 2)) 1 seqSched
        (((unsortedOfSize (2 ^ 31 + 2)).length + 1) / 2) = some r1 ∧
      r1.rounds = 0 ∧
      ¬ (∀ i, (hi : i + 1 < r1.arr.length) → r1.arr[i] ≤ r1.arr[i + 1]) := by
  have h0 : roundsOf (unsortedOfSize (2 ^ 31 + 2)).length = 0 := by
    rw [length_unsortedOfSize]; decide
  rw [sortAfter_eq, h0, Nat.min_zero]
  exact ⟨_, rfl, rfl, unsortedOfSize_not_nonDecreasing (2 ^ 31 + 2) _ rfl⟩

end OddEvenSort
